import Mathlib

/-!
# The fiber call stack of `src/core/thread.c`

A shallow embedding of the call-stack routines of `src/core/thread.c`
(`gst_thread`, `gst_thread_ensure_extra`, `gst_thread_push`,
`gst_thread_pushnil`, `gst_thread_tuplepack`, `gst_thread_beginframe`,
`gst_thread_endframe`, `gst_thread_popframe`, `gst_thread_countframes`).

* The value storage `thread->data` is a list of cells whose length is the
  size of the allocation; every read and write is bounds checked and a
  routine that would touch a cell outside the allocation yields `none`.
* `uint32_t` arithmetic is arithmetic on `Nat` reduced modulo `2^32` (`u32`);
  pointer arithmetic (`stack + i`) is not reduced.
* A loop is a recursive function; the loop of `gst_thread_countframes`, which
  need not terminate, takes fuel.
* `GST_FRAME_SIZE`, the number of storage cells of a frame header, comes from
  `gst/gst.h`, which is not part of `src/`; it is a parameter of every
  definition.
-/

namespace GstCore

/-! ## Data model -/

/-- The result of a `uint32_t` computation: the value modulo `2^32`. -/
def u32 (n : Nat) : Nat := n % 4294967296

/-- Modelled from the spec: the function definition type of `gst/gst.h` (not
under `src/`), "bytecode entry point, fixed arity, local-slot count, vararg
flag"; the fields read by `gst_thread_endframe`. -/
structure GstFuncDef where
  byteCode : Nat
  arity : Nat
  locals : Nat
  flags : Nat

/-- Modelled from the spec: the bit of `GstFuncDef.flags` that marks a variadic
function (`GST_FUNCDEF_FLAG_VARARG` of `gst/gst.h`, not under `src/`). -/
def GST_FUNCDEF_FLAG_VARARG : Nat := 1

/-- Modelled from the spec: a function value, `fn->def` being its definition
(`GstFunction` of `gst/gst.h`, not under `src/`). -/
structure GstFunction where
  fdef : GstFuncDef

/-- Modelled from the spec: the tagged value `GstValue` of `gst/gst.h` (not
under `src/`), opaque except for the three tags the call stack looks at: `Nil`,
`Function` and `Tuple`, the immutable sequence that `gst_tuple_begin` /
`gst_tuple_end` build. -/
inductive GstValue where
  | nil
  | tuple (elems : List GstValue)
  | function (fn : GstFunction)
  | other (tag payload : Nat)

/-- Modelled from the spec: the frame header, the record that the accessors
`gst_frame_size`, `gst_frame_prevsize`, `gst_frame_ret`, `gst_frame_args`,
`gst_frame_pc`, `gst_frame_env` and `gst_frame_callee` of `gst/gst.h` (not
under `src/`) read and write. `pc` and `env` are pointers, `none` being
`NULL`; `env` points into the heap of closure environments. -/
structure GstFrame where
  size : Nat
  prevsize : Nat
  ret : Nat
  args : Nat
  pc : Option Nat
  env : Option Nat
  callee : GstValue

/-- One element of the value storage: memory fresh from `gst_alloc`, a value,
or header fields. -/
inductive Cell where
  | uninit
  | value (v : GstValue)
  | frame (h : GstFrame)

/-- A cell read through the header accessors; a cell that holds no header
fields reads as zeros. -/
def Cell.toFrame : Cell → GstFrame
  | .frame h => h
  | _ => { size := 0, prevsize := 0, ret := 0, args := 0, pc := none, env := none,
           callee := .nil }

/-- A cell read as a value (`tuple[i - n] = stack[i]`). -/
def Cell.toValue : Cell → GstValue
  | .value v => v
  | _ => .other 0 0

/-- The states of a fiber (`thread->status`). -/
inductive GstThreadStatus where
  | pending
  | alive
  | dead
  | error

/-- The fiber, `GstThread`: `data` is the value storage (its length is the
size of the allocation), `count` the offset of the current frame's first local
slot, `parent` a reference to another fiber. -/
structure GstThread where
  data : List Cell
  capacity : Nat
  count : Nat
  status : GstThreadStatus
  parent : Option Nat

/-- A closure environment, `GstFuncEnv`: `thread` is the live back-reference
(`none` once detached), `values` the owned buffer (`none` while `NULL`). -/
structure GstFuncEnv where
  thread : Option Nat
  stackOffset : Nat
  values : Option (List Cell)

/-- The part of the VM state the call stack uses: the active fiber
`vm->thread` and the heap of closure environments that `GstFuncEnv *` pointers
index. -/
structure Gst where
  thread : Option Nat
  envs : List GstFuncEnv

/-! ## Memory primitives -/

/-- Modelled from the spec: the allocator `gst_alloc` (not under `src/`), a
"request-sized allocation primitive"; the memory it returns is uninitialised. -/
def gst_alloc (n : Nat) : List Cell := List.replicate n Cell.uninit

/-- Modelled from the spec: `gst_memcpy(dst, src, n)` (not under `src/`) copies
the first `n` cells of `src` over the first `n` cells of `dst`; both ranges
have to lie inside their allocations. -/
def gst_memcpy (dst src : List Cell) (n : Nat) : Option (List Cell) :=
  if n ≤ src.length ∧ n ≤ dst.length then some (src.take n ++ dst.drop n) else none

/-- Checked read of `data[i]`. -/
def readCell (data : List Cell) (i : Nat) : Option Cell := data[i]?

/-- Checked write `data[i] = c`. -/
def writeCell (data : List Cell) (i : Nat) (c : Cell) : Option (List Cell) :=
  if i < data.length then some (data.set i c) else none

section Frames

variable (GST_FRAME_SIZE : Nat)

/-- Modelled from the spec: the header of the frame whose locals start at
offset `stack` occupies the `GST_FRAME_SIZE` cells just below `stack` (the
layout inside them is fixed by the `gst_frame_*` accessors of `gst/gst.h`, not
under `src/`); the model keeps the record in the cell at `stack - 1`. The
access is legal when the whole header lies inside the allocation. -/
def frameOk (data : List Cell) (stack : Nat) : Prop :=
  0 < GST_FRAME_SIZE ∧ GST_FRAME_SIZE ≤ stack ∧ stack ≤ data.length

instance (data : List Cell) (stack : Nat) : Decidable (frameOk GST_FRAME_SIZE data stack) := by
  unfold frameOk; infer_instance

/-- The header fields of the frame at `stack`, whatever the cell holds. -/
def frameAt (data : List Cell) (stack : Nat) : GstFrame :=
  (data.getD (stack - 1) Cell.uninit).toFrame

/-- Checked read of the header of the frame at `stack`. -/
def readFrame (data : List Cell) (stack : Nat) : Option GstFrame :=
  if frameOk GST_FRAME_SIZE data stack then some (frameAt data stack) else none

/-- Checked update of header fields of the frame at `stack`. -/
def writeFrame (data : List Cell) (stack : Nat) (f : GstFrame → GstFrame) :
    Option (List Cell) :=
  if frameOk GST_FRAME_SIZE data stack then
    some (data.set (stack - 1) (Cell.frame (f (frameAt data stack))))
  else none

/-! ## The routines of `thread.c` -/

/-- `gst_thread_ensure_extra`: make room for `extra` more cells. -/
def gst_thread_ensure_extra (thread : GstThread) (extra : Nat) : Option GstThread := do
  let stack ← readFrame GST_FRAME_SIZE thread.data thread.count
  let usedCapacity := u32 (thread.count + stack.size + GST_FRAME_SIZE)
  let neededCapacity := u32 (usedCapacity + extra)
  if thread.capacity ≥ neededCapacity then
    some thread
  else
    let newCapacity := u32 (2 * neededCapacity)
    let newData ← gst_memcpy (gst_alloc newCapacity) thread.data usedCapacity
    some { thread with data := newData, capacity := newCapacity }

/-- `gst_thread_push`: `stack[gst_frame_size(stack)++] = x`. -/
def gst_thread_push (thread : GstThread) (x : GstValue) : Option GstThread := do
  let thread ← gst_thread_ensure_extra GST_FRAME_SIZE thread 1
  let stack ← readFrame GST_FRAME_SIZE thread.data thread.count
  let data ← writeCell thread.data (thread.count + stack.size) (Cell.value x)
  let data ← writeFrame GST_FRAME_SIZE data thread.count
    (fun h => { h with size := u32 (h.size + 1) })
  some { thread with data := data }

/-- The loop of `gst_thread_pushnil`: `current->type = GST_NIL` for the `n`
cells from `current` on. Only the type tag is written; what a `Nil` cell
keeps in its data part is not observable, and the cell becomes the value
`Nil`. -/
def nilFill (data : List Cell) (current : Nat) : Nat → Option (List Cell)
  | 0 => some data
  | n + 1 => do
    let data ← writeCell data current (Cell.value GstValue.nil)
    nilFill data (current + 1) n

/-- `gst_thread_pushnil`: push `n` nils onto the current frame. -/
def gst_thread_pushnil (thread : GstThread) (n : Nat) : Option GstThread := do
  let thread ← gst_thread_ensure_extra GST_FRAME_SIZE thread n
  let stack ← readFrame GST_FRAME_SIZE thread.data thread.count
  let data ← nilFill thread.data (thread.count + stack.size) n
  let data ← writeFrame GST_FRAME_SIZE data thread.count
    (fun h => { h with size := u32 (h.size + n) })
  some { thread with data := data }

/-- The loop of `gst_thread_tuplepack`: `tuple[i - n] = stack[i]` for the
`k` slots from `stack + i` on, read in order. -/
def tupleFill (data : List Cell) (i : Nat) : Nat → Option (List GstValue)
  | 0 => some []
  | k + 1 => do
    let c ← readCell data i
    let rest ← tupleFill data (i + 1) k
    some (c.toValue :: rest)

/-- `gst_thread_tuplepack`: package the slots from `n` on into a tuple at
slot `n`. -/
def gst_thread_tuplepack (thread : GstThread) (n : Nat) : Option GstThread := do
  let stack ← readFrame GST_FRAME_SIZE thread.data thread.count
  let size := stack.size
  if n > size then
    let thread ← gst_thread_pushnil GST_FRAME_SIZE thread (u32 (n - size + 1))
    let data ← writeCell thread.data (thread.count + n) (Cell.value (GstValue.tuple []))
    let data ← writeFrame GST_FRAME_SIZE data thread.count
      (fun h => { h with size := u32 (n + 1) })
    some { thread with data := data }
  else
    let tuple ← tupleFill thread.data (thread.count + n) (size - n)
    let data ← writeCell thread.data (thread.count + n) (Cell.value (GstValue.tuple tuple))
    some { thread with data := data }

/-- `gst_thread_beginframe`: push a frame with room for `arity` arguments. The
returned stack pointer `thread->data + thread->count` is the `count` of the
result. -/
def gst_thread_beginframe (thread : GstThread) (callee : GstValue) (arity : Nat) :
    Option GstThread := do
  let thread ← gst_thread_ensure_extra GST_FRAME_SIZE thread (u32 (GST_FRAME_SIZE + arity + 4))
  let oldStack ← readFrame GST_FRAME_SIZE thread.data thread.count
  let frameOffset := u32 (oldStack.size + GST_FRAME_SIZE)
  let newStack := thread.count + frameOffset
  let data ← writeFrame GST_FRAME_SIZE thread.data newStack
    (fun h => { h with prevsize := oldStack.size, env := none, size := 0, callee := callee })
  let thread := { thread with data := data, count := u32 (thread.count + frameOffset) }
  gst_thread_pushnil GST_FRAME_SIZE thread arity

/-- `gst_thread_endframe`: finalise the current frame before a call. -/
def gst_thread_endframe (thread : GstThread) : Option GstThread := do
  let stack ← readFrame GST_FRAME_SIZE thread.data thread.count
  match stack.callee with
  | GstValue.function fn =>
    let data ← writeFrame GST_FRAME_SIZE thread.data thread.count
      (fun h => { h with pc := some fn.fdef.byteCode })
    let thread := { thread with data := data }
    let thread ←
      if fn.fdef.flags &&& GST_FUNCDEF_FLAG_VARARG ≠ 0 then
        gst_thread_tuplepack GST_FRAME_SIZE thread fn.fdef.arity
      else
        if stack.size < fn.fdef.locals then
          gst_thread_pushnil GST_FRAME_SIZE thread (fn.fdef.locals - stack.size)
        else some thread
    let data ← writeFrame GST_FRAME_SIZE thread.data thread.count
      (fun h => { h with args := u32 (h.size + GST_FRAME_SIZE) })
    some { thread with data := data }
  | _ => some thread

/-- `gst_thread`: create a fiber running `callee`. -/
def gst_thread (vm : Gst) (callee : GstValue) (capacity : Nat) : Option GstThread := do
  let capacity := if capacity < GST_FRAME_SIZE then GST_FRAME_SIZE else capacity
  let data := gst_alloc capacity
  let data ← writeFrame GST_FRAME_SIZE data GST_FRAME_SIZE
    (fun _ => { size := 0, prevsize := 0, ret := 0, args := 0, pc := none, env := none,
                callee := callee })
  let thread : GstThread :=
    { data := data, capacity := capacity, count := GST_FRAME_SIZE,
      status := GstThreadStatus.pending, parent := none }
  let thread ← gst_thread_endframe GST_FRAME_SIZE thread
  some { thread with parent := vm.thread }

/-- The closure detachment of `gst_thread_popframe`: `env->thread = NULL`,
`env->stackOffset = size`, `env->values` a fresh copy of `values`. -/
def detach (envs : List GstFuncEnv) (env : Nat) (size : Nat) (values : List Cell) :
    Option (List GstFuncEnv) :=
  if env < envs.length then
    some (envs.set env { thread := none, stackOffset := size, values := some values })
  else none

/-- `gst_thread_popframe`: pop the current frame. The result is the VM, the
fiber and the returned stack pointer: `none` for `NULL`, `some s` for
`thread->data + s`. The pointer `nextstack = stack - GST_FRAME_SIZE - prevsize`
has to stay inside the allocation; `thread->count -= GST_FRAME_SIZE + prevsize`
is `uint32_t` arithmetic. -/
def gst_thread_popframe (vm : Gst) (thread : GstThread) :
    Option (Gst × GstThread × Option Nat) := do
  let stack ← readFrame GST_FRAME_SIZE thread.data thread.count
  let prevsize := stack.prevsize
  if GST_FRAME_SIZE + prevsize ≤ thread.count then
    let nextstack := thread.count - GST_FRAME_SIZE - prevsize
    let envs ←
      match stack.env with
      | some env => do
        let size := stack.size
        let values ← gst_memcpy (gst_alloc size) (thread.data.drop thread.count) size
        detach vm.envs env size values
      | none => some vm.envs
    let count := u32 (thread.count + 4294967296 - u32 (GST_FRAME_SIZE + prevsize))
    let thread := { thread with count := count }
    if count ≠ 0 then
      some ({ vm with envs := envs }, thread, some nextstack)
    else
      some ({ vm with envs := envs }, thread, none)
  else none

/-- `gst_thread_countframes`: the loop, `fuel` bounding the number of
iterations; `none` when the fuel runs out or a header outside the allocation
is read. -/
def countLoop (data : List Cell) (laststack : Nat) : Nat → Nat → Nat → Option Nat
  | 0, _, _ => none
  | fuel + 1, stack, count =>
    if stack ≤ laststack then do
      let h ← readFrame GST_FRAME_SIZE data stack
      countLoop data laststack fuel (stack + u32 (h.size + GST_FRAME_SIZE)) (u32 (count + 1))
    else some count

/-- `gst_thread_countframes`: count the frames of a fiber. -/
def gst_thread_countframes (fuel : Nat) (thread : GstThread) : Option Nat :=
  countLoop GST_FRAME_SIZE thread.data thread.count fuel GST_FRAME_SIZE 0

/-! ## Vocabulary of the statements -/

/-- The header of the current frame of a fiber. -/
def GstThread.frame (t : GstThread) : GstFrame := frameAt t.data t.count

/-- Local slot `i` of the current frame (`stack[i]`), `none` outside the
allocation. -/
def GstThread.slot (t : GstThread) (i : Nat) : Option Cell := t.data[t.count + i]?

/-- The cells in use: `count + size + GST_FRAME_SIZE` (`usedCapacity`). -/
def GstThread.used (t : GstThread) : Nat := t.count + t.frame.size + GST_FRAME_SIZE

/-- The fiber invariant of the data model: the current header lies inside the
storage, `capacity` is the size of the allocation, and
`capacity ≥ count + size + GST_FRAME_SIZE`. -/
def Valid (t : GstThread) : Prop :=
  frameOk GST_FRAME_SIZE t.data t.count ∧ t.data.length = t.capacity ∧
    t.used GST_FRAME_SIZE ≤ t.capacity

/-- The frame condition of the routines that work on the current frame only:
the result is a valid fiber with the same `count`, `status` and `parent`, a
capacity that did not shrink, and every cell below the current header as
before. -/
structure FrameStep (t t' : GstThread) : Prop where
  valid : Valid GST_FRAME_SIZE t'
  count : t'.count = t.count
  status : t'.status = t.status
  parent : t'.parent = t.parent
  capacity : t.capacity ≤ t'.capacity
  below : ∀ i, i + 1 < t.count → t'.data[i]? = t.data[i]?

end Frames

instance (GST_FRAME_SIZE : Nat) (t : GstThread) : Decidable (Valid GST_FRAME_SIZE t) := by
  unfold Valid; infer_instance

/-! ## Sequences of calls -/

/-- `gst_thread_push` for each value of a list, in order. -/
def pushAll (GST_FRAME_SIZE : Nat) (thread : GstThread) : List GstValue → Option GstThread
  | [] => some thread
  | x :: xs => do
    let thread ← gst_thread_push GST_FRAME_SIZE thread x
    pushAll GST_FRAME_SIZE thread xs

/-- An upper bound on the number of slots `gst_thread_endframe` adds to a
frame that runs `callee`. -/
def endframeRoom : GstValue → Nat
  | GstValue.function fn => fn.fdef.locals + fn.fdef.arity + 1
  | _ => 0

/-- The routines that work on a fiber without popping a frame. -/
inductive StackOp where
  | push (x : GstValue)
  | pushnil (n : Nat)
  | beginframe (callee : GstValue) (arity : Nat)
  | endframe

/-- One routine, run on the VM and a fiber as in `thread.c` (the VM is what
the routine hands to the allocator). -/
def StackOp.run (GST_FRAME_SIZE : Nat) (vm : Gst) (thread : GstThread) :
    StackOp → Option (Gst × GstThread)
  | StackOp.push x => (gst_thread_push GST_FRAME_SIZE thread x).map fun t => (vm, t)
  | StackOp.pushnil n => (gst_thread_pushnil GST_FRAME_SIZE thread n).map fun t => (vm, t)
  | StackOp.beginframe callee arity =>
    (gst_thread_beginframe GST_FRAME_SIZE thread callee arity).map fun t => (vm, t)
  | StackOp.endframe => (gst_thread_endframe GST_FRAME_SIZE thread).map fun t => (vm, t)

/-- A sequence of routines, run in order. -/
def runOps (GST_FRAME_SIZE : Nat) (vm : Gst) (thread : GstThread) :
    List StackOp → Option (Gst × GstThread)
  | [] => some (vm, thread)
  | op :: ops => do
    let (vm, thread) ← op.run GST_FRAME_SIZE vm thread
    runOps GST_FRAME_SIZE vm thread ops

/-- One nested call: `gst_thread_beginframe` for `callee` with `arity`, then
the pushes, then (when `finish` is set) `gst_thread_endframe`. -/
structure Level where
  callee : GstValue
  arity : Nat
  pushes : List GstValue
  finish : Bool

/-- One nested call on a fiber. -/
def runLevel (GST_FRAME_SIZE : Nat) (thread : GstThread) (l : Level) : Option GstThread := do
  let thread ← gst_thread_beginframe GST_FRAME_SIZE thread l.callee l.arity
  let thread ← pushAll GST_FRAME_SIZE thread l.pushes
  if l.finish then gst_thread_endframe GST_FRAME_SIZE thread else some thread

/-- Nested calls, outermost first, with no pop in between. -/
def runLevels (GST_FRAME_SIZE : Nat) (thread : GstThread) : List Level → Option GstThread
  | [] => some thread
  | l :: ls => do
    let thread ← runLevel GST_FRAME_SIZE thread l
    runLevels GST_FRAME_SIZE thread ls

/-- An upper bound on the cells one nested call asks for. -/
def Level.room (GST_FRAME_SIZE : Nat) (l : Level) : Nat :=
  2 * GST_FRAME_SIZE + l.arity + l.pushes.length + endframeRoom l.callee + 4

/-- `gst_thread_popframe`, `j` times. -/
def popFrames (GST_FRAME_SIZE : Nat) : Nat → Gst → GstThread → Option (Gst × GstThread)
  | 0, vm, thread => some (vm, thread)
  | j + 1, vm, thread => do
    let (vm, thread, _) ← gst_thread_popframe GST_FRAME_SIZE vm thread
    popFrames GST_FRAME_SIZE j vm thread

/-- `FrameChain H data s k`: the frame at offset `s` is the top of a
well-formed chain with `k` frames below it. The bottom frame starts at offset
`H` with `prevsize = 0`; each further frame starts at the previous start plus
the previous size plus `H`, and its `prevsize` is the size of the frame
directly below; every header lies inside the storage and holds no closure
environment. -/
inductive FrameChain (GST_FRAME_SIZE : Nat) (data : List Cell) : Nat → Nat → Prop where
  | root : frameOk GST_FRAME_SIZE data GST_FRAME_SIZE →
      (frameAt data GST_FRAME_SIZE).prevsize = 0 →
      (frameAt data GST_FRAME_SIZE).env = none →
      FrameChain GST_FRAME_SIZE data GST_FRAME_SIZE 0
  | next {s k : Nat} : FrameChain GST_FRAME_SIZE data s k →
      frameOk GST_FRAME_SIZE data (s + (frameAt data s).size + GST_FRAME_SIZE) →
      (frameAt data (s + (frameAt data s).size + GST_FRAME_SIZE)).prevsize =
        (frameAt data s).size →
      (frameAt data (s + (frameAt data s).size + GST_FRAME_SIZE)).env = none →
      FrameChain GST_FRAME_SIZE data (s + (frameAt data s).size + GST_FRAME_SIZE) (k + 1)

/-- `ForwardWalk H data s k`: the forward walk of `gst_thread_countframes`,
from offset `H` in steps of `size + H`, reaches offset `s` after reading `k`
headers, each inside the storage and with `size + H` within the 32-bit
range. Nothing is asked of `prevsize`, nor that the walk meets `count`. -/
inductive ForwardWalk (GST_FRAME_SIZE : Nat) (data : List Cell) : Nat → Nat → Prop where
  | bottom : ForwardWalk GST_FRAME_SIZE data GST_FRAME_SIZE 0
  | step {s k : Nat} : ForwardWalk GST_FRAME_SIZE data s k →
      frameOk GST_FRAME_SIZE data s →
      (frameAt data s).size + GST_FRAME_SIZE < 4294967296 →
      ForwardWalk GST_FRAME_SIZE data (s + (frameAt data s).size + GST_FRAME_SIZE) (k + 1)

/-- The fiber `gst_thread` has built when it calls `gst_thread_endframe`: the
storage of `max capacity GST_FRAME_SIZE` cells with the root header in the cell
below offset `GST_FRAME_SIZE`, `count = GST_FRAME_SIZE`, status pending. -/
def gst_thread_root (GST_FRAME_SIZE : Nat) (callee : GstValue) (capacity : Nat) : GstThread :=
  { data := (gst_alloc (if capacity < GST_FRAME_SIZE then GST_FRAME_SIZE else capacity)).set
      (GST_FRAME_SIZE - 1)
      (Cell.frame { size := 0, prevsize := 0, ret := 0, args := 0, pc := none, env := none,
                    callee := callee })
    capacity := if capacity < GST_FRAME_SIZE then GST_FRAME_SIZE else capacity
    count := GST_FRAME_SIZE
    status := GstThreadStatus.pending
    parent := none }

/-- `Reachable H t`: the fiber state `t` is produced by a call of `gst_thread`
followed by calls of `gst_thread_push`, `gst_thread_pushnil`,
`gst_thread_tuplepack`, `gst_thread_beginframe`, `gst_thread_endframe` and
`gst_thread_popframe` that return. Each call is made on a fiber whose extent
`count + size + H` (for `gst_thread_beginframe` with the `H` cells of the new
header added) is below `2^32`, so that the `uint32_t` offsets of the call do
not wrap; `gst_thread_popframe` is only called while `count` is not zero. -/
inductive Reachable (GST_FRAME_SIZE : Nat) : GstThread → Prop where
  | init {vm : Gst} {callee : GstValue} {capacity : Nat} {t : GstThread} :
      2 * GST_FRAME_SIZE < 4294967296 →
      gst_thread GST_FRAME_SIZE vm callee capacity = some t →
      Reachable GST_FRAME_SIZE t
  | push {t t' : GstThread} {x : GstValue} :
      Reachable GST_FRAME_SIZE t → t.used GST_FRAME_SIZE < 4294967296 →
      gst_thread_push GST_FRAME_SIZE t x = some t' →
      Reachable GST_FRAME_SIZE t'
  | pushnil {t t' : GstThread} {n : Nat} :
      Reachable GST_FRAME_SIZE t → t.used GST_FRAME_SIZE < 4294967296 →
      gst_thread_pushnil GST_FRAME_SIZE t n = some t' →
      Reachable GST_FRAME_SIZE t'
  | tuplepack {t t' : GstThread} {n : Nat} :
      Reachable GST_FRAME_SIZE t → t.used GST_FRAME_SIZE < 4294967296 →
      gst_thread_tuplepack GST_FRAME_SIZE t n = some t' →
      Reachable GST_FRAME_SIZE t'
  | beginframe {t t' : GstThread} {callee : GstValue} {arity : Nat} :
      Reachable GST_FRAME_SIZE t →
      t.used GST_FRAME_SIZE + GST_FRAME_SIZE < 4294967296 →
      gst_thread_beginframe GST_FRAME_SIZE t callee arity = some t' →
      Reachable GST_FRAME_SIZE t'
  | endframe {t t' : GstThread} :
      Reachable GST_FRAME_SIZE t → t.used GST_FRAME_SIZE < 4294967296 →
      gst_thread_endframe GST_FRAME_SIZE t = some t' →
      Reachable GST_FRAME_SIZE t'
  | popframe {vm vm' : Gst} {t t' : GstThread} {r : Option Nat} :
      Reachable GST_FRAME_SIZE t → t.count ≠ 0 → t.used GST_FRAME_SIZE < 4294967296 →
      gst_thread_popframe GST_FRAME_SIZE vm t = some (vm', t', r) →
      Reachable GST_FRAME_SIZE t'

/-! ## Concrete fibers

Fibers with `GST_FRAME_SIZE = 2` used to evaluate the routines. -/

/-- Four distinct values that are neither `Nil`, a function nor a tuple. -/
def valA : GstValue := GstValue.other 7 10

/-- See `valA`. -/
def valB : GstValue := GstValue.other 7 11

/-- See `valA`. -/
def valC : GstValue := GstValue.other 7 12

/-- See `valA`. -/
def valD : GstValue := GstValue.other 7 13

/-- A variadic function of declared arity 2. -/
def variadic2 : GstValue :=
  GstValue.function ⟨{ byteCode := 77, arity := 2, locals := 0, flags := 1 }⟩

/-- A fixed-arity function declaring 5 local slots. -/
def fixed5 : GstValue :=
  GstValue.function ⟨{ byteCode := 88, arity := 2, locals := 5, flags := 0 }⟩

/-- A fiber whose only frame runs `callee` and holds `slots`, followed by
`spare` unused cells. -/
def fiberOf (callee : GstValue) (slots : List GstValue) (spare : Nat) : GstThread :=
  { data := [Cell.uninit,
      Cell.frame { size := slots.length, prevsize := 0, ret := 0, args := 0, pc := none,
                   env := none, callee := callee }] ++
      slots.map Cell.value ++ List.replicate spare Cell.uninit
    capacity := 2 + slots.length + spare
    count := 2
    status := GstThreadStatus.pending
    parent := none }

/-- A fiber whose only frame holds `slots` and is captured by the closure
environment `env`. -/
def capturedFiber (env : Nat) (slots : List GstValue) (spare : Nat) : GstThread :=
  { data := [Cell.uninit,
      Cell.frame { size := slots.length, prevsize := 0, ret := 0, args := 0, pc := none,
                   env := some env, callee := valA }] ++
      slots.map Cell.value ++ List.replicate spare Cell.uninit
    capacity := 2 + slots.length + spare
    count := 2
    status := GstThreadStatus.alive
    parent := none }

/-- A VM with one live closure environment (number 0) over fiber 0. -/
def capturingVm : Gst :=
  { thread := none, envs := [{ thread := some 0, stackOffset := 0, values := none }] }

/-- The fiber `fiberOf valA [valC, valD] 2` after `gst_thread_beginframe` for
`fixed5` with arity 1: two frames, the current one at offset 6. -/
def calledFiber : GstThread :=
  { data := [Cell.uninit,
      Cell.frame { size := 2, prevsize := 0, ret := 0, args := 0, pc := none, env := none,
                   callee := valA },
      Cell.value valC, Cell.value valD, Cell.uninit,
      Cell.frame { size := 1, prevsize := 2, ret := 0, args := 0, pc := none, env := none,
                   callee := fixed5 },
      Cell.value GstValue.nil] ++ List.replicate 19 Cell.uninit
    capacity := 26
    count := 6
    status := GstThreadStatus.pending
    parent := none }

/-- Two nested calls for the evaluation of `gst_thread_countframes`. -/
def twoLevels : List Level :=
  [{ callee := fixed5, arity := 1, pushes := [valA, valB], finish := true },
   { callee := variadic2, arity := 0, pushes := [valC], finish := false }]

/-- A variadic function of declared arity 0. -/
def variadic0 : GstValue :=
  GstValue.function ⟨{ byteCode := 66, arity := 0, locals := 0, flags := 1 }⟩

/-- A fiber with `count = 4` whose bottom header claims 5 slots: the forward
walk goes from offset 2 to offset 9 and passes `count` without landing on
it. -/
def malformedFiber : GstThread :=
  { data := [Cell.uninit,
      Cell.frame { size := 5, prevsize := 0, ret := 0, args := 0, pc := none, env := none,
                   callee := valA }] ++ List.replicate 8 Cell.uninit
    capacity := 10
    count := 4
    status := GstThreadStatus.alive
    parent := none }

/-- A fiber whose only header holds the size `2^32 - 2`, so that
`size + GST_FRAME_SIZE` is 0 in `uint32_t` arithmetic. -/
def loopFiber : GstThread :=
  { data := [Cell.uninit,
      Cell.frame { size := 4294967294, prevsize := 0, ret := 0, args := 0, pc := none,
                   env := none, callee := valA }]
    capacity := 2
    count := 2
    status := GstThreadStatus.alive
    parent := none }

/-- A fiber with `count = 3` whose bottom header holds the size `2^32 - 1`, so
that `size + GST_FRAME_SIZE` is 1 in `uint32_t` arithmetic. -/
def shortStepFiber : GstThread :=
  { data := [Cell.uninit,
      Cell.frame { size := 4294967295, prevsize := 0, ret := 0, args := 0, pc := none,
                   env := none, callee := valA },
      Cell.uninit]
    capacity := 3
    count := 3
    status := GstThreadStatus.alive
    parent := none }

/-- The fiber `gst_thread` is building for `variadic0` with capacity 0, when
`gst_thread_endframe` has set `pc` and calls `gst_thread_tuplepack`: the
storage has `GST_FRAME_SIZE = 2` cells, all taken by the header. -/
def bareFiber : GstThread :=
  { data := [Cell.uninit,
      Cell.frame { size := 0, prevsize := 0, ret := 0, args := 0, pc := some 66, env := none,
                   callee := variadic0 }]
    capacity := 2
    count := 2
    status := GstThreadStatus.pending
    parent := none }

/-! ## Basic facts -/

theorem u32_of_lt {n : Nat} (h : n < 4294967296) : u32 n = n := Nat.mod_eq_of_lt h

theorem u32_lt (n : Nat) : u32 n < 4294967296 := Nat.mod_lt _ (by decide)

theorem readFrame_of_ok {H : Nat} {d : List Cell} {s : Nat} (h : frameOk H d s) :
    readFrame H d s = some (frameAt d s) := by
  simp [readFrame, h]

theorem writeFrame_of_ok {H : Nat} {d : List Cell} {s : Nat} (h : frameOk H d s)
    (f : GstFrame → GstFrame) :
    writeFrame H d s f = some (d.set (s - 1) (Cell.frame (f (frameAt d s)))) := by
  simp [writeFrame, h]

theorem writeCell_of_lt {d : List Cell} {i : Nat} (h : i < d.length) (c : Cell) :
    writeCell d i c = some (d.set i c) := by
  simp [writeCell, h]

theorem frameAt_congr {d d' : List Cell} {s : Nat} (h : d'[s - 1]? = d[s - 1]?) :
    frameAt d' s = frameAt d s := by
  simp [frameAt, List.getD_eq_getElem?_getD, h]

theorem frameAt_set_self {d : List Cell} {s : Nat} (h : s - 1 < d.length) (fr : GstFrame) :
    frameAt (d.set (s - 1) (Cell.frame fr)) s = fr := by
  simp [frameAt, List.getD_eq_getElem?_getD, List.getElem?_set, h, Cell.toFrame]

theorem frameAt_set_ne {d : List Cell} {s i : Nat} (h : i ≠ s - 1) (c : Cell) :
    frameAt (d.set i c) s = frameAt d s := by
  apply frameAt_congr
  rw [List.getElem?_set_ne h]

theorem frameOk_of_length {H : Nat} {d d' : List Cell} {s : Nat} (h : frameOk H d s)
    (hl : d.length ≤ d'.length) : frameOk H d' s :=
  ⟨h.1, h.2.1, le_trans h.2.2 hl⟩

/-! ## `gst_thread_ensure_extra` -/

theorem ensure_extra_noop {H : Nat} {t : GstThread} {extra : Nat}
    (hok : frameOk H t.data t.count) (hfit : t.used H + extra < 4294967296)
    (hcap : t.used H + extra ≤ t.capacity) :
    gst_thread_ensure_extra H t extra = some t := by
  have h1 : u32 (t.count + (frameAt t.data t.count).size + H) = t.used H :=
    u32_of_lt (by simp only [GstThread.used, GstThread.frame] at hfit; omega)
  have h2 : u32 (t.used H + extra) = t.used H + extra := u32_of_lt hfit
  simp [gst_thread_ensure_extra, readFrame_of_ok hok, h1, h2, hcap]

theorem ensure_extra_grow {H : Nat} {t : GstThread} {extra : Nat}
    (hok : frameOk H t.data t.count) (hlen : t.used H ≤ t.data.length)
    (hfit : 2 * (t.used H + extra) < 4294967296)
    (hcap : t.capacity < t.used H + extra) :
    gst_thread_ensure_extra H t extra =
      some { t with
        data := t.data.take (t.used H) ++
          List.replicate (2 * (t.used H + extra) - t.used H) Cell.uninit
        capacity := 2 * (t.used H + extra) } := by
  have h1 : u32 (t.count + (frameAt t.data t.count).size + H) = t.used H :=
    u32_of_lt (by simp only [GstThread.used, GstThread.frame] at hfit; omega)
  have h2 : u32 (t.used H + extra) = t.used H + extra := u32_of_lt (by omega)
  have h3 : u32 (2 * (t.used H + extra)) = 2 * (t.used H + extra) := u32_of_lt hfit
  have h4 : ¬ t.used H + extra ≤ t.capacity := by omega
  have h5 : t.used H ≤ 2 * (t.used H + extra) := by omega
  simp [gst_thread_ensure_extra, readFrame_of_ok hok, h1, h2, h3, h4, gst_memcpy, gst_alloc,
    hlen, h5]

theorem ensure_extra_spec {H : Nat} {t : GstThread} (extra : Nat) (hv : Valid H t)
    (hfit : 2 * (t.used H + extra) < 4294967296) :
    ∃ t', gst_thread_ensure_extra H t extra = some t' ∧ t'.count = t.count ∧
      t'.status = t.status ∧ t'.parent = t.parent ∧ t'.data.length = t'.capacity ∧
      t.used H + extra ≤ t'.capacity ∧ t.capacity ≤ t'.capacity ∧
      ∀ i, i < t.used H → t'.data[i]? = t.data[i]? := by
  obtain ⟨hok, hlen, hcap⟩ := hv
  by_cases h : t.used H + extra ≤ t.capacity
  · exact ⟨t, ensure_extra_noop hok (by omega) h, rfl, rfl, rfl, hlen, h, le_refl _,
      fun _ _ => rfl⟩
  · refine ⟨_, ensure_extra_grow hok (by omega) hfit (by omega), rfl, rfl, rfl, ?_, ?_, ?_, ?_⟩
    · simp only [List.length_append, List.length_take, List.length_replicate]
      rw [Nat.min_eq_left (by omega)]
      omega
    · simp only; omega
    · simp only; omega
    · intro i hi
      simp only
      rw [List.getElem?_append_left (by simp; omega), List.getElem?_take_of_lt hi]

/-! ## `gst_thread_pushnil` and `gst_thread_push` -/

theorem nilFill_spec (n : Nat) : ∀ (d : List Cell) (cur : Nat), cur + n ≤ d.length →
    ∃ d', nilFill d cur n = some d' ∧ d'.length = d.length ∧
      (∀ i, cur ≤ i → i < cur + n → d'[i]? = some (Cell.value GstValue.nil)) ∧
      (∀ i, (i < cur ∨ cur + n ≤ i) → d'[i]? = d[i]?) := by
  induction n with
  | zero =>
    intro d cur _
    exact ⟨d, rfl, rfl, fun i h1 h2 => by omega, fun _ _ => rfl⟩
  | succ n ih =>
    intro d cur h
    have hlt : cur < d.length := by omega
    obtain ⟨d', hd', hlen, hnil, hrest⟩ :=
      ih (d.set cur (Cell.value GstValue.nil)) (cur + 1) (by simp; omega)
    refine ⟨d', ?_, ?_, ?_, ?_⟩
    · simp [nilFill, writeCell_of_lt hlt, hd']
    · simpa using hlen
    · intro i h1 h2
      by_cases hi : i = cur
      · subst hi
        rw [hrest i (Or.inl (by omega)), List.getElem?_set_self hlt]
      · exact hnil i (by omega) (by omega)
    · intro i hi
      rw [hrest i (by omega), List.getElem?_set_ne (by omega)]

theorem pushnil_spec {H : Nat} {t : GstThread} {n : Nat} (hv : Valid H t)
    (hfit : 2 * (t.used H + n) < 4294967296) :
    ∃ t', gst_thread_pushnil H t n = some t' ∧ FrameStep H t t' ∧
      t'.frame = { t.frame with size := t.frame.size + n } ∧
      (∀ i, i < t.count + t.frame.size → i ≠ t.count - 1 → t'.data[i]? = t.data[i]?) ∧
      (∀ i, t.frame.size ≤ i → i < t.frame.size + n →
        t'.slot i = some (Cell.value GstValue.nil)) := by
  obtain ⟨t1, h1, hc1, hs1, hp1, hl1, hcap1, hmono1, hsame1⟩ := ensure_extra_spec n hv hfit
  obtain ⟨hok, hlen, hcap⟩ := hv
  have hH := hok.1
  have hcnt := hok.2.1
  simp only [GstThread.used, GstThread.frame] at *
  have hfr1 : frameAt t1.data t1.count = frameAt t.data t.count := by
    rw [hc1]; exact frameAt_congr (hsame1 _ (by omega))
  generalize frameAt t.data t.count = fr at *
  have hok1 : frameOk H t1.data t1.count := ⟨hH, by omega, by omega⟩
  obtain ⟨d2, hd2, hlen2, hnil2, hrest2⟩ :=
    nilFill_spec n t1.data (t1.count + fr.size) (by omega)
  have hok2 : frameOk H d2 t1.count := ⟨hH, by omega, by omega⟩
  have hfr2 : frameAt d2 t1.count = fr := by
    rw [← hfr1]; exact frameAt_congr (hrest2 _ (Or.inl (by omega)))
  have hsz : u32 (fr.size + n) = fr.size + n := u32_of_lt (by omega)
  refine ⟨{ t1 with
      data := d2.set (t1.count - 1) (Cell.frame { fr with size := fr.size + n }) },
    ?_, ?_, ?_, ?_, ?_⟩
  · simp [gst_thread_pushnil, h1, readFrame_of_ok hok1, hfr1, hd2, writeFrame_of_ok hok2, hfr2,
      hsz]
  · refine ⟨⟨⟨hH, by simp only; omega, by simp; omega⟩, by simp; omega, ?_⟩, hc1, hs1, hp1,
      hmono1, ?_⟩
    · simp only [GstThread.used, GstThread.frame]
      rw [frameAt_set_self (by omega)]
      simp only; omega
    · intro i hi
      simp only
      rw [List.getElem?_set_ne (by omega), hrest2 i (Or.inl (by omega)), hsame1 i (by omega)]
  · simp only
    rw [frameAt_set_self (by omega)]
  · intro i hi hne
    simp only
    rw [List.getElem?_set_ne (by omega), hrest2 i (Or.inl (by omega)), hsame1 i (by omega)]
  · intro i h1 h2
    simp only [GstThread.slot]
    rw [List.getElem?_set_ne (by omega)]
    exact hnil2 _ (by omega) (by omega)

theorem push_spec {H : Nat} {t : GstThread} (x : GstValue) (hv : Valid H t)
    (hfit : 2 * (t.used H + 1) < 4294967296) :
    ∃ t', gst_thread_push H t x = some t' ∧ FrameStep H t t' ∧
      t'.frame = { t.frame with size := t.frame.size + 1 } ∧
      (∀ i, i < t.count + t.frame.size → i ≠ t.count - 1 → t'.data[i]? = t.data[i]?) ∧
      t'.slot t.frame.size = some (Cell.value x) := by
  obtain ⟨t1, h1, hc1, hs1, hp1, hl1, hcap1, hmono1, hsame1⟩ := ensure_extra_spec 1 hv hfit
  obtain ⟨hok, hlen, hcap⟩ := hv
  have hH := hok.1
  have hcnt := hok.2.1
  simp only [GstThread.used, GstThread.frame] at *
  have hfr1 : frameAt t1.data t1.count = frameAt t.data t.count := by
    rw [hc1]; exact frameAt_congr (hsame1 _ (by omega))
  generalize frameAt t.data t.count = fr at *
  have hok1 : frameOk H t1.data t1.count := ⟨hH, by omega, by omega⟩
  have hlt : t1.count + fr.size < t1.data.length := by omega
  have hok2 : frameOk H (t1.data.set (t1.count + fr.size) (Cell.value x)) t1.count :=
    ⟨hH, by omega, by simp; omega⟩
  have hfr2 : frameAt (t1.data.set (t1.count + fr.size) (Cell.value x)) t1.count = fr := by
    rw [frameAt_set_ne (by omega), hfr1]
  have hsz : u32 (fr.size + 1) = fr.size + 1 := u32_of_lt (by omega)
  refine ⟨{ t1 with
      data := (t1.data.set (t1.count + fr.size) (Cell.value x)).set (t1.count - 1)
        (Cell.frame { fr with size := fr.size + 1 }) },
    ?_, ?_, ?_, ?_, ?_⟩
  · simp [gst_thread_push, h1, readFrame_of_ok hok1, hfr1, writeCell_of_lt hlt,
      writeFrame_of_ok hok2, hfr2, hsz]
  · refine ⟨⟨⟨hH, by simp only; omega, by simp; omega⟩, by simp; omega, ?_⟩, hc1, hs1, hp1,
      hmono1, ?_⟩
    · simp only [GstThread.used, GstThread.frame]
      rw [frameAt_set_self (by simp; omega)]
      simp only; omega
    · intro i hi
      simp only
      rw [List.getElem?_set_ne (by omega), List.getElem?_set_ne (by omega), hsame1 i (by omega)]
  · simp only
    rw [frameAt_set_self (by simp; omega)]
  · intro i hi hne
    simp only
    rw [List.getElem?_set_ne (by omega), List.getElem?_set_ne (by omega), hsame1 i (by omega)]
  · simp only [GstThread.slot]
    rw [List.getElem?_set_ne (by omega), hc1, List.getElem?_set_self (by omega)]

/-! ## `gst_thread_tuplepack` -/

theorem tupleFill_spec (d : List Cell) (k : Nat) : ∀ i, i + k ≤ d.length →
    tupleFill d i k = some (((d.drop i).take k).map Cell.toValue) := by
  induction k with
  | zero => intro i _; simp [tupleFill]
  | succ k ih =>
    intro i h
    have hlt : i < d.length := by omega
    have hd : d.drop i = d[i] :: d.drop (i + 1) := List.drop_eq_getElem_cons hlt
    have hr : readCell d i = some d[i] := List.getElem?_eq_getElem hlt
    rw [hd, List.take_succ_cons, List.map_cons]
    simp only [tupleFill, hr, ih (i + 1) (by omega), Option.bind_eq_bind, Option.some_bind]

theorem tuplepack_over_spec {H : Nat} {t : GstThread} {n : Nat} (hv : Valid H t)
    (hn : n ≤ t.frame.size) :
    ∃ t', gst_thread_tuplepack H t n = some t' ∧ FrameStep H t t' ∧ t'.frame = t.frame ∧
      (∀ i, i ≠ t.count + n → t'.data[i]? = t.data[i]?) ∧
      t'.slot n = some (Cell.value (GstValue.tuple
        (((t.data.drop (t.count + n)).take (t.frame.size - n)).map Cell.toValue))) := by
  obtain ⟨hok, hlen, hcap⟩ := hv
  have hH := hok.1
  have hcnt := hok.2.1
  simp only [GstThread.used, GstThread.frame] at *
  have hlt : t.count + n < t.data.length := by omega
  have hng : ¬ n > (frameAt t.data t.count).size := by omega
  generalize hfr0 : frameAt t.data t.count = fr at *
  generalize htup : ((t.data.drop (t.count + n)).take (fr.size - n)).map Cell.toValue = tup
  have hfill : tupleFill t.data (t.count + n) (fr.size - n) = some tup := by
    rw [← htup]; exact tupleFill_spec t.data (fr.size - n) (t.count + n) (by omega)
  have hfr : frameAt (t.data.set (t.count + n) (Cell.value (GstValue.tuple tup))) t.count = fr := by
    rw [frameAt_set_ne (by omega), hfr0]
  refine ⟨{ t with data := t.data.set (t.count + n) (Cell.value (GstValue.tuple tup)) },
    ?_, ?_, ?_, ?_, ?_⟩
  · simp only [gst_thread_tuplepack, readFrame_of_ok hok, hfr0, hng, hfill,
      writeCell_of_lt hlt, Option.bind_eq_bind, Option.some_bind, if_false]
  · refine ⟨⟨⟨hH, hcnt, by simp; omega⟩, by simp; omega, ?_⟩, rfl, rfl, rfl, le_refl _, ?_⟩
    · simp only [GstThread.used, GstThread.frame]
      rw [hfr]; omega
    · intro i hi
      simp only
      rw [List.getElem?_set_ne (by omega)]
  · exact hfr
  · intro i hi
    simp only
    rw [List.getElem?_set_ne (by omega)]
  · simp only [GstThread.slot]
    rw [List.getElem?_set_self (by omega)]

theorem tuplepack_under_spec {H : Nat} {t : GstThread} {n : Nat} (hv : Valid H t)
    (hn : t.frame.size < n) (hfit : 2 * (t.count + n + 1 + H) < 4294967296) :
    ∃ t', gst_thread_tuplepack H t n = some t' ∧ FrameStep H t t' ∧
      t'.frame = { t.frame with size := n + 1 } ∧
      (∀ i, i < t.count + t.frame.size → i ≠ t.count - 1 → t'.data[i]? = t.data[i]?) ∧
      (∀ i, t.frame.size ≤ i → i < n → t'.slot i = some (Cell.value GstValue.nil)) ∧
      t'.slot n = some (Cell.value (GstValue.tuple [])) := by
  have hfit1 : 2 * (t.used H + (n - t.frame.size + 1)) < 4294967296 := by
    simp only [GstThread.used]; omega
  obtain ⟨t1, h1, hstep1, hfr1, hsame1, hnil1⟩ := pushnil_spec hv hfit1
  obtain ⟨⟨hok1, hlen1, hcap1⟩, hc1, hs1, hp1, hmono1, hbelow1⟩ := hstep1
  obtain ⟨hok, hlen, hcap⟩ := hv
  have hH := hok.1
  have hcnt := hok.2.1
  simp only [GstThread.used, GstThread.frame, GstThread.slot] at *
  generalize hfr0 : frameAt t.data t.count = fr at *
  have hsz1 : (frameAt t1.data t1.count).size = n + 1 := by rw [hfr1]; simp only; omega
  have hu : u32 (n - fr.size + 1) = n - fr.size + 1 := u32_of_lt (by omega)
  have hu2 : u32 (n + 1) = n + 1 := u32_of_lt (by omega)
  have hlt : t1.count + n < t1.data.length := by omega
  have hok2 : frameOk H (t1.data.set (t1.count + n) (Cell.value (GstValue.tuple []))) t1.count :=
    ⟨hH, by omega, by simp; omega⟩
  have hfr2 : frameAt (t1.data.set (t1.count + n) (Cell.value (GstValue.tuple []))) t1.count =
      { fr with size := fr.size + (n - fr.size + 1) } := by
    rw [frameAt_set_ne (by omega), hfr1]
  have hgt : n > fr.size := hn
  refine ⟨{ t1 with
      data := (t1.data.set (t1.count + n) (Cell.value (GstValue.tuple []))).set (t1.count - 1)
        (Cell.frame { fr with size := n + 1 }) },
    ?_, ?_, ?_, ?_, ?_, ?_⟩
  · simp only [gst_thread_tuplepack, readFrame_of_ok hok, hfr0, hgt, hu, h1, writeCell_of_lt hlt,
      writeFrame_of_ok hok2, hfr2, hu2, Option.bind_eq_bind, Option.some_bind, if_true]
  · refine ⟨⟨⟨hH, by simp only; omega, by simp; omega⟩, by simp; omega, ?_⟩, hc1, hs1, hp1,
      hmono1, ?_⟩
    · simp only [GstThread.used, GstThread.frame]
      rw [frameAt_set_self (by simp; omega)]
      simp only; omega
    · intro i hi
      simp only
      rw [List.getElem?_set_ne (by omega), List.getElem?_set_ne (by omega), hbelow1 i hi]
  · simp only
    rw [frameAt_set_self (by simp; omega)]
  · intro i hi hne
    simp only
    rw [List.getElem?_set_ne (by omega), List.getElem?_set_ne (by omega), hsame1 i hi hne]
  · intro i hi1 hi2
    simp only
    rw [List.getElem?_set_ne (by omega), List.getElem?_set_ne (by omega)]
    exact hnil1 i hi1 (by omega)
  · simp only
    rw [List.getElem?_set_ne (by omega), List.getElem?_set_self (by omega)]

/-! ## `gst_thread_endframe` -/

theorem setFrame_spec {H : Nat} {t : GstThread} (hv : Valid H t) (f : GstFrame → GstFrame)
    (hsz : (f t.frame).size = t.frame.size) :
    ∃ d', writeFrame H t.data t.count f = some d' ∧ FrameStep H t { t with data := d' } ∧
      frameAt d' t.count = f t.frame ∧ ∀ i, i ≠ t.count - 1 → d'[i]? = t.data[i]? := by
  obtain ⟨hok, hlen, hcap⟩ := hv
  have hH := hok.1
  have hcnt := hok.2.1
  have hle := hok.2.2
  simp only [GstThread.used, GstThread.frame] at *
  have hfr : frameAt (t.data.set (t.count - 1) (Cell.frame (f (frameAt t.data t.count)))) t.count =
      f (frameAt t.data t.count) := frameAt_set_self (by omega) _
  refine ⟨_, writeFrame_of_ok hok f, ⟨⟨⟨hH, hcnt, by simp; omega⟩, by simp; omega, ?_⟩, rfl, rfl,
    rfl, le_refl _, ?_⟩, hfr, ?_⟩
  · simp only [GstThread.used, GstThread.frame]
    rw [hfr, hsz]; exact hcap
  · intro i hi
    simp only
    rw [List.getElem?_set_ne (by omega)]
  · intro i hi
    rw [List.getElem?_set_ne (by omega)]

theorem FrameStep.trans {H : Nat} {t t1 t2 : GstThread} (h1 : FrameStep H t t1)
    (h2 : FrameStep H t1 t2) : FrameStep H t t2 :=
  ⟨h2.valid, h2.count.trans h1.count, h2.status.trans h1.status, h2.parent.trans h1.parent,
    le_trans h1.capacity h2.capacity,
    fun i hi => (h2.below i (by rw [h1.count]; exact hi)).trans (h1.below i hi)⟩

theorem endframe_fixed_spec {H : Nat} {t : GstThread} {fn : GstFunction} (hv : Valid H t)
    (hcallee : t.frame.callee = GstValue.function fn)
    (hflag : fn.fdef.flags &&& GST_FUNCDEF_FLAG_VARARG = 0)
    (hfit : 2 * (t.used H + fn.fdef.locals) < 4294967296) :
    ∃ t', gst_thread_endframe H t = some t' ∧ FrameStep H t t' ∧
      t'.frame = { t.frame with
        size := max t.frame.size fn.fdef.locals
        pc := some fn.fdef.byteCode
        args := max t.frame.size fn.fdef.locals + H } ∧
      (∀ i, i < t.count + t.frame.size → i ≠ t.count - 1 → t'.data[i]? = t.data[i]?) ∧
      (∀ i, t.frame.size ≤ i → i < fn.fdef.locals →
        t'.slot i = some (Cell.value GstValue.nil)) := by
  obtain ⟨d1, hw1, hstep1, hfr1, hsame1⟩ :=
    setFrame_spec hv (fun h => { h with pc := some fn.fdef.byteCode }) rfl
  have hok := hv.1
  have hH := hok.1
  have hcnt := hok.2.1
  generalize hfr0 : t.frame = fr at *
  -- the padding step
  have hpad : ∃ t2, ((fr.size < fn.fdef.locals ∧
        gst_thread_pushnil H { t with data := d1 } (fn.fdef.locals - fr.size) = some t2) ∨
      (¬ fr.size < fn.fdef.locals ∧ t2 = { t with data := d1 })) ∧ FrameStep H { t with data := d1 } t2 ∧
      t2.frame = { fr with size := max fr.size fn.fdef.locals, pc := some fn.fdef.byteCode } ∧
      (∀ i, i < t.count + fr.size → i ≠ t.count - 1 → t2.data[i]? = d1[i]?) ∧
      (∀ i, fr.size ≤ i → i < fn.fdef.locals → t2.slot i = some (Cell.value GstValue.nil)) := by
    have hfr1' : GstThread.frame { t with data := d1 } =
        { fr with pc := some fn.fdef.byteCode } := hfr1
    by_cases hlt : fr.size < fn.fdef.locals
    · have hfit1 : 2 * (GstThread.used H { t with data := d1 } + (fn.fdef.locals - fr.size)) <
          4294967296 := by
        simp only [GstThread.used, hfr1'] at *
        rw [hfr0] at hfit
        omega
      obtain ⟨t2, h2, hstep2, hfr2, hsame2, hnil2⟩ := pushnil_spec hstep1.valid hfit1
      rw [hfr1'] at hfr2 hsame2 hnil2
      refine ⟨t2, Or.inl ⟨hlt, h2⟩, hstep2, ?_, hsame2, ?_⟩
      · rw [hfr2]
        simp only [GstFrame.mk.injEq, and_true, true_and]
        omega
      · intro i hi1 hi2
        exact hnil2 i hi1 (by simp only; omega)
    · refine ⟨_, Or.inr ⟨hlt, rfl⟩, ⟨hstep1.valid, rfl, rfl, rfl, le_refl _, fun _ _ => rfl⟩,
        ?_, fun _ _ _ => rfl, ?_⟩
      · rw [hfr1']
        simp only [GstFrame.mk.injEq, and_true, true_and]
        omega
      · intro i hi1 hi2
        omega
  obtain ⟨t2, h2, hstep2, hfr2, hsame2, hnil2⟩ := hpad
  obtain ⟨d3, hw3, hstep3, hfr3, hsame3⟩ :=
    setFrame_spec hstep2.valid (fun h => { h with args := u32 (h.size + H) }) rfl
  have hc2 : t2.count = t.count := hstep2.count
  have hargs : u32 (max fr.size fn.fdef.locals + H) = max fr.size fn.fdef.locals + H :=
    u32_of_lt (by simp only [GstThread.used] at hfit; rw [hfr0] at hfit; omega)
  refine ⟨{ t2 with data := d3 }, ?_, hstep1.trans (hstep2.trans hstep3), ?_, ?_, ?_⟩
  · have hr : readFrame H t.data t.count = some fr := by
      rw [readFrame_of_ok hok]; exact congrArg some hfr0
    have hflag' : ¬ (fn.fdef.flags &&& GST_FUNCDEF_FLAG_VARARG ≠ 0) := by simp [hflag]
    rcases h2 with ⟨hlt, h2⟩ | ⟨hlt, h2⟩
    · simp only [gst_thread_endframe, hr, Option.bind_eq_bind, Option.some_bind, hcallee, hw1,
        if_neg hflag', if_pos hlt, h2, hw3]
    · subst h2
      simp only [gst_thread_endframe, hr, Option.bind_eq_bind, Option.some_bind, hcallee, hw1,
        if_neg hflag', if_neg hlt, hw3]
  · show frameAt d3 t2.count = _
    rw [hfr3, hfr2]
    simp only [hargs]
  · intro i hi hne
    show d3[i]? = _
    rw [hsame3 i (by omega), hsame2 i hi hne, hsame1 i hne]
  · intro i hi1 hi2
    show d3[t2.count + i]? = _
    rw [hsame3 (t2.count + i) (by omega)]
    exact hnil2 i hi1 hi2
theorem endframe_vararg_spec {H : Nat} {t : GstThread} {fn : GstFunction} (hv : Valid H t)
    (hcallee : t.frame.callee = GstValue.function fn)
    (hflag : fn.fdef.flags &&& GST_FUNCDEF_FLAG_VARARG ≠ 0)
    (hfit : 2 * (t.used H + fn.fdef.arity + 1) < 4294967296) :
    ∃ t', gst_thread_endframe H t = some t' ∧ FrameStep H t t' ∧
      t'.frame = { t.frame with
        size := if t.frame.size < fn.fdef.arity then fn.fdef.arity + 1 else t.frame.size
        pc := some fn.fdef.byteCode
        args := (if t.frame.size < fn.fdef.arity then fn.fdef.arity + 1 else t.frame.size) + H } := by
  obtain ⟨d1, hw1, hstep1, hfr1, hsame1⟩ :=
    setFrame_spec hv (fun h => { h with pc := some fn.fdef.byteCode }) rfl
  have hok := hv.1
  have hH := hok.1
  have hcnt := hok.2.1
  generalize hfr0 : t.frame = fr at *
  have hfr1' : GstThread.frame { t with data := d1 } =
      { fr with pc := some fn.fdef.byteCode } := hfr1
  have hpack : ∃ t2, gst_thread_tuplepack H { t with data := d1 } fn.fdef.arity = some t2 ∧
      FrameStep H { t with data := d1 } t2 ∧
      t2.frame = { fr with
        size := if fr.size < fn.fdef.arity then fn.fdef.arity + 1 else fr.size
        pc := some fn.fdef.byteCode } := by
    by_cases hlt : fr.size < fn.fdef.arity
    · have hfit1 : 2 * (t.count + fn.fdef.arity + 1 + H) < 4294967296 := by
        simp only [GstThread.used] at hfit; omega
      obtain ⟨t2, h2, hstep2, hfr2, -⟩ :=
        tuplepack_under_spec hstep1.valid (by rw [hfr1']; exact hlt) hfit1
      refine ⟨t2, h2, hstep2, ?_⟩
      rw [hfr2, hfr1', if_pos hlt]
    · obtain ⟨t2, h2, hstep2, hfr2, -⟩ :=
        tuplepack_over_spec (n := fn.fdef.arity) hstep1.valid
          (by rw [hfr1']; simp only; omega)
      refine ⟨t2, h2, hstep2, ?_⟩
      rw [hfr2, hfr1', if_neg hlt]
  obtain ⟨t2, h2, hstep2, hfr2⟩ := hpack
  obtain ⟨d3, hw3, hstep3, hfr3, hsame3⟩ :=
    setFrame_spec hstep2.valid (fun h => { h with args := u32 (h.size + H) }) rfl
  have hargs : u32 ((if fr.size < fn.fdef.arity then fn.fdef.arity + 1 else fr.size) + H) =
      (if fr.size < fn.fdef.arity then fn.fdef.arity + 1 else fr.size) + H :=
    u32_of_lt (by
      simp only [GstThread.used] at hfit; rw [hfr0] at hfit
      split <;> omega)
  refine ⟨{ t2 with data := d3 }, ?_, hstep1.trans (hstep2.trans hstep3), ?_⟩
  · have hr : readFrame H t.data t.count = some fr := by
      rw [readFrame_of_ok hok]; exact congrArg some hfr0
    simp only [gst_thread_endframe, hr, Option.bind_eq_bind, Option.some_bind, hcallee, hw1,
      if_pos hflag, h2, hw3]
  · show frameAt d3 t2.count = _
    rw [hfr3, hfr2]
    simp only [hargs]

theorem endframe_other_spec {H : Nat} {t : GstThread} (hok : frameOk H t.data t.count)
    (hcallee : ∀ fn, t.frame.callee ≠ GstValue.function fn) :
    gst_thread_endframe H t = some t := by
  have hr : readFrame H t.data t.count = some t.frame := readFrame_of_ok hok
  simp only [gst_thread_endframe, hr, Option.bind_eq_bind, Option.some_bind]

/-! ## `gst_thread_beginframe` -/

theorem beginframe_spec {H : Nat} {t : GstThread} (callee : GstValue) (arity : Nat)
    (hv : Valid H t) (hfit : 2 * (t.used H + H + arity + 4) < 4294967296) :
    ∃ t', gst_thread_beginframe H t callee arity = some t' ∧ Valid H t' ∧
      t'.count = t.count + t.frame.size + H ∧ t'.status = t.status ∧ t'.parent = t.parent ∧
      t.capacity ≤ t'.capacity ∧
      t'.frame.prevsize = t.frame.size ∧ t'.frame.env = none ∧ t'.frame.callee = callee ∧
      t'.frame.size = arity ∧
      (∀ i, i < arity → t'.slot i = some (Cell.value GstValue.nil)) ∧
      (∀ i, i < t.count + t.frame.size → t'.data[i]? = t.data[i]?) := by
  have hu : u32 (H + arity + 4) = H + arity + 4 := u32_of_lt (by omega)
  obtain ⟨t1, h1, hc1, hs1, hp1, hl1, hcap1, hmono1, hsame1⟩ :=
    ensure_extra_spec (H + arity + 4) hv (by omega)
  obtain ⟨hok, hlen, hcap⟩ := hv
  have hH := hok.1
  have hcnt := hok.2.1
  simp only [GstThread.used, GstThread.frame] at *
  have hfr1 : frameAt t1.data t1.count = frameAt t.data t.count := by
    rw [hc1]; exact frameAt_congr (hsame1 _ (by omega))
  generalize frameAt t.data t.count = fr at *
  have hok1 : frameOk H t1.data t1.count := ⟨hH, by omega, by omega⟩
  have hoff : u32 (fr.size + H) = fr.size + H := u32_of_lt (by omega)
  have hcnt2 : u32 (t1.count + (fr.size + H)) = t1.count + (fr.size + H) := u32_of_lt (by omega)
  have hok2 : frameOk H t1.data (t1.count + (fr.size + H)) := ⟨hH, by omega, by omega⟩
  generalize hd2 : t1.data.set (t1.count + (fr.size + H) - 1)
    (Cell.frame { (frameAt t1.data (t1.count + (fr.size + H))) with
      prevsize := fr.size, env := none, size := 0, callee := callee }) = d2
  have hw2 : writeFrame H t1.data (t1.count + (fr.size + H))
      (fun h => { h with prevsize := fr.size, env := none, size := 0, callee := callee }) =
      some d2 := by
    rw [writeFrame_of_ok hok2, hd2]
  have hlen2 : d2.length = t1.data.length := by rw [← hd2]; simp
  have hfr2 : frameAt d2 (t1.count + (fr.size + H)) =
      { (frameAt t1.data (t1.count + (fr.size + H))) with
        prevsize := fr.size, env := none, size := 0, callee := callee } := by
    rw [← hd2]; exact frameAt_set_self (by omega) _
  have hv2 : Valid H { t1 with data := d2, count := t1.count + (fr.size + H) } := by
    refine ⟨⟨hH, by simp only; omega, by simp only; omega⟩, by simp only; omega, ?_⟩
    simp only [GstThread.used, GstThread.frame]
    rw [hfr2]
    simp only; omega
  obtain ⟨t3, h3, hstep3, hfr3, hsame3, hnil3⟩ := pushnil_spec (n := arity) hv2 (by
    simp only [GstThread.used, GstThread.frame]
    rw [hfr2]
    simp only; omega)
  have hfr3' : frameAt t3.data t3.count = { (frameAt t1.data (t1.count + (fr.size + H))) with
      prevsize := fr.size, env := none, size := 0 + arity, callee := callee } := by
    show t3.frame = _
    rw [hfr3]
    simp only [GstThread.frame]
    rw [hfr2]
  refine ⟨t3, ?_, hstep3.valid, ?_, hstep3.status.trans hs1, hstep3.parent.trans hp1,
    le_trans hmono1 hstep3.capacity, ?_, ?_, ?_, ?_, ?_, ?_⟩
  · simp only [gst_thread_beginframe, hu, h1, Option.bind_eq_bind, Option.some_bind,
      readFrame_of_ok hok1, hfr1, hoff, hw2, hcnt2, h3]
  · rw [hstep3.count]; simp only; omega
  · rw [hfr3']
  · rw [hfr3']
  · rw [hfr3']
  · rw [hfr3']; simp
  · intro i hi
    apply hnil3 i
    · simp only [GstThread.frame]; rw [hfr2]; simp
    · simp only [GstThread.frame]; rw [hfr2]; simp only; omega
  · intro i hi
    rw [hstep3.below i (by simp only; omega)]
    simp only
    rw [← hd2, List.getElem?_set_ne (by omega), hsame1 i (by omega)]

/-! ## `gst_thread_popframe` -/

theorem popframe_spec {H : Nat} (vm : Gst) {t : GstThread} (hok : frameOk H t.data t.count)
    (hprev : H + t.frame.prevsize ≤ t.count) (hcount : t.count < 4294967296)
    (henv : ∀ e, t.frame.env = some e →
      e < vm.envs.length ∧ t.count + t.frame.size ≤ t.data.length) :
    gst_thread_popframe H vm t = some
      ({ vm with envs :=
          match t.frame.env with
          | some e => vm.envs.set e
              { thread := none, stackOffset := t.frame.size,
                values := some ((t.data.drop t.count).take t.frame.size) }
          | none => vm.envs },
       { t with count := t.count - (H + t.frame.prevsize) },
       if t.count - (H + t.frame.prevsize) ≠ 0 then some (t.count - (H + t.frame.prevsize))
       else none) := by
  simp only [GstThread.frame] at *
  generalize hfr : frameAt t.data t.count = fr at *
  have h1 : u32 (H + fr.prevsize) = H + fr.prevsize := u32_of_lt (by omega)
  have h2 : u32 (t.count + 4294967296 - (H + fr.prevsize)) = t.count - (H + fr.prevsize) := by
    unfold u32; omega
  have h3 : t.count - H - fr.prevsize = t.count - (H + fr.prevsize) := by omega
  simp only [gst_thread_popframe, readFrame_of_ok hok, hfr, Option.bind_eq_bind,
    Option.some_bind, if_pos hprev, h1, h2, h3]
  cases he : fr.env with
  | none => simp only [Option.some_bind]; split <;> rfl
  | some e =>
    obtain ⟨hlt, hsz⟩ := henv e he
    have hcp : gst_memcpy (gst_alloc fr.size) (t.data.drop t.count) fr.size =
        some ((t.data.drop t.count).take fr.size) := by
      simp [gst_memcpy, gst_alloc]; omega
    simp only [hcp, Option.some_bind, detach, if_pos hlt]
    split <;> rfl

/-! ## Sequences of pushes -/

theorem FrameStep.refl {H : Nat} {t : GstThread} (hv : Valid H t) : FrameStep H t t :=
  ⟨hv, rfl, rfl, rfl, le_refl _, fun _ _ => rfl⟩

theorem pushAll_spec {H : Nat} (xs : List GstValue) : ∀ (t : GstThread), Valid H t →
    2 * (t.used H + xs.length) < 4294967296 →
    ∃ t', pushAll H t xs = some t' ∧ FrameStep H t t' ∧
      t'.frame = { t.frame with size := t.frame.size + xs.length } := by
  induction xs with
  | nil =>
    intro t hv _
    exact ⟨t, rfl, FrameStep.refl hv, rfl⟩
  | cons x xs ih =>
    intro t hv hfit
    simp only [List.length_cons] at hfit
    obtain ⟨t1, h1, hstep1, hfr1, -⟩ := push_spec x hv (by omega)
    have hused : t1.used H = t.used H + 1 := by
      simp only [GstThread.used, hfr1, hstep1.count]; omega
    obtain ⟨t2, h2, hstep2, hfr2⟩ := ih t1 hstep1.valid (by omega)
    refine ⟨t2, ?_, hstep1.trans hstep2, ?_⟩
    · simp only [pushAll, h1, Option.bind_eq_bind, Option.some_bind, h2]
    · rw [hfr2, hfr1]
      simp only [List.length_cons, GstFrame.mk.injEq, and_true]
      omega

theorem endframe_spec {H : Nat} {t : GstThread} (hv : Valid H t)
    (hfit : 2 * (t.used H + endframeRoom t.frame.callee) < 4294967296) :
    ∃ t', gst_thread_endframe H t = some t' ∧ FrameStep H t t' ∧
      t'.frame.prevsize = t.frame.prevsize ∧ t'.frame.env = t.frame.env ∧
      t'.frame.callee = t.frame.callee ∧ t'.frame.ret = t.frame.ret ∧
      t.frame.size ≤ t'.frame.size ∧
      t'.frame.size ≤ t.frame.size + endframeRoom t.frame.callee := by
  cases hc : t.frame.callee with
  | function fn =>
    rw [hc] at hfit
    simp only [endframeRoom] at hfit ⊢
    by_cases hflag : fn.fdef.flags &&& GST_FUNCDEF_FLAG_VARARG = 0
    · obtain ⟨t', h, hstep, hfr, -⟩ := endframe_fixed_spec hv hc hflag (by omega)
      refine ⟨t', h, hstep, by rw [hfr], by rw [hfr], by rw [hfr, hc], by rw [hfr], ?_, ?_⟩
      · rw [hfr]; simp only; omega
      · rw [hfr]; simp only; omega
    · obtain ⟨t', h, hstep, hfr⟩ := endframe_vararg_spec hv hc hflag (by omega)
      refine ⟨t', h, hstep, by rw [hfr], by rw [hfr], by rw [hfr, hc], by rw [hfr], ?_, ?_⟩
      · rw [hfr]; simp only; split <;> omega
      · rw [hfr]; simp only; split <;> omega
  | nil =>
    have h := endframe_other_spec hv.1 (fun fn => by rw [hc]; exact fun h => GstValue.noConfusion h)
    exact ⟨t, h, FrameStep.refl hv, rfl, rfl, hc, rfl, le_refl _, Nat.le_add_right _ _⟩
  | tuple xs =>
    have h := endframe_other_spec hv.1 (fun fn => by rw [hc]; exact fun h => GstValue.noConfusion h)
    exact ⟨t, h, FrameStep.refl hv, rfl, rfl, hc, rfl, le_refl _, Nat.le_add_right _ _⟩
  | other a b =>
    have h := endframe_other_spec hv.1 (fun fn => by rw [hc]; exact fun h => GstValue.noConfusion h)
    exact ⟨t, h, FrameStep.refl hv, rfl, rfl, hc, rfl, le_refl _, Nat.le_add_right _ _⟩

/-! ## Sequences of routines -/

theorem runOps_vm {H : Nat} (ops : List StackOp) : ∀ (vm vm' : Gst) (t t' : GstThread),
    runOps H vm t ops = some (vm', t') → vm' = vm := by
  induction ops with
  | nil =>
    intro vm vm' t t' h
    simp only [runOps, Option.some.injEq, Prod.mk.injEq] at h
    exact h.1.symm
  | cons op ops ih =>
    intro vm vm' t t' h
    simp only [runOps, Option.bind_eq_bind, Option.bind_eq_some] at h
    obtain ⟨⟨vm1, t1⟩, h1, h2⟩ := h
    have hvm1 : vm1 = vm := by
      cases op <;>
        simp only [StackOp.run, Option.map_eq_some', Prod.mk.injEq] at h1 <;>
        obtain ⟨_, _, h3, _⟩ := h1 <;> exact h3.symm
    rw [← hvm1]
    exact ih vm1 vm' t1 t' h2

/-! ## What a successful call preserves, for any fiber

These facts need no capacity invariant: they follow a call that returned. -/

theorem readFrame_eq_some {H : Nat} {d : List Cell} {s : Nat} {fr : GstFrame}
    (h : readFrame H d s = some fr) : frameOk H d s ∧ frameAt d s = fr := by
  unfold readFrame at h
  split at h
  · next hok => exact ⟨hok, Option.some.inj h⟩
  · exact absurd h (by simp)

theorem writeFrame_eq_some {H : Nat} {d d' : List Cell} {s : Nat} {f : GstFrame → GstFrame}
    (h : writeFrame H d s f = some d') :
    frameOk H d s ∧ d.set (s - 1) (Cell.frame (f (frameAt d s))) = d' := by
  unfold writeFrame at h
  split at h
  · next hok => exact ⟨hok, Option.some.inj h⟩
  · exact absurd h (by simp)

theorem writeCell_eq_some {d d' : List Cell} {i : Nat} {c : Cell}
    (h : writeCell d i c = some d') : i < d.length ∧ d.set i c = d' := by
  unfold writeCell at h
  split at h
  · next hlt => exact ⟨hlt, Option.some.inj h⟩
  · exact absurd h (by simp)

theorem u32_le (n : Nat) : u32 n ≤ n := Nat.mod_le _ _

theorem ensure_extra_weak {H : Nat} {t t' : GstThread} {extra : Nat}
    (h : gst_thread_ensure_extra H t extra = some t') (hfit : t.used H < 4294967296) :
    frameOk H t.data t.count ∧ frameOk H t'.data t'.count ∧ t'.count = t.count ∧
      t'.status = t.status ∧ t'.parent = t.parent ∧
      (∀ i, i < t.count → t'.data[i]? = t.data[i]?) ∧
      (t.data.length = t.capacity → t'.data.length = t'.capacity) := by
  simp only [gst_thread_ensure_extra, Option.bind_eq_bind, Option.bind_eq_some] at h
  obtain ⟨fr, hr, h⟩ := h
  obtain ⟨hok, hfr⟩ := readFrame_eq_some hr
  subst hfr
  have hu : u32 (t.count + (frameAt t.data t.count).size + H) = t.used H := u32_of_lt hfit
  rw [hu] at h
  split at h
  · cases h
    exact ⟨hok, hok, rfl, rfl, rfl, fun _ _ => rfl, fun hl => hl⟩
  · simp only [Option.bind_eq_some, Option.some.injEq] at h
    obtain ⟨newData, hcp, h⟩ := h
    subst h
    unfold gst_memcpy at hcp
    split at hcp
    · next hle =>
      have hd := Option.some.inj hcp
      subst hd
      have hused : t.count ≤ t.used H := by simp only [GstThread.used]; omega
      simp only [gst_alloc, List.length_replicate] at hle
      refine ⟨hok, ⟨hok.1, hok.2.1, ?_⟩, rfl, rfl, rfl, ?_, ?_⟩
      · simp only [List.length_append, List.length_take, List.length_drop, gst_alloc,
          List.length_replicate]
        omega
      · intro i hi
        simp only
        rw [List.getElem?_append_left (by simp; omega), List.getElem?_take_of_lt (by omega)]
      · intro _
        simp only [List.length_append, List.length_take, List.length_drop, gst_alloc,
          List.length_replicate]
        omega
    · exact absurd hcp (by simp)

/-- A call of `gst_thread_ensure_extra` that returned, on a fiber whose
`capacity` is the size of its allocation, shows that the capacity invariant
held. -/
theorem ensure_extra_valid {H : Nat} {t t' : GstThread} {extra : Nat}
    (h : gst_thread_ensure_extra H t extra = some t')
    (hfit : t.used H + extra < 4294967296) (hlen : t.data.length = t.capacity) :
    Valid H t := by
  simp only [gst_thread_ensure_extra, Option.bind_eq_bind, Option.bind_eq_some] at h
  obtain ⟨fr, hr, h⟩ := h
  obtain ⟨hok, hfr⟩ := readFrame_eq_some hr
  subst hfr
  have hu : u32 (t.count + (frameAt t.data t.count).size + H) = t.used H :=
    u32_of_lt (lt_of_le_of_lt (Nat.le_add_right _ _) hfit)
  have hn : u32 (t.used H + extra) = t.used H + extra := u32_of_lt hfit
  rw [hu, hn] at h
  split at h
  · next hge => exact ⟨hok, hlen, by omega⟩
  · simp only [Option.bind_eq_some, Option.some.injEq] at h
    obtain ⟨newData, hcp, -⟩ := h
    unfold gst_memcpy at hcp
    split at hcp
    · next hle => exact ⟨hok, hlen, by omega⟩
    · exact absurd hcp (by simp)

theorem ensure_extra_cap {H : Nat} {t t' : GstThread} {extra : Nat}
    (h : gst_thread_ensure_extra H t extra = some t')
    (hfit : 2 * (t.used H + extra) < 4294967296) : t.capacity ≤ t'.capacity := by
  simp only [gst_thread_ensure_extra, Option.bind_eq_bind, Option.bind_eq_some] at h
  obtain ⟨fr, hr, h⟩ := h
  obtain ⟨hok, hfr⟩ := readFrame_eq_some hr
  subst hfr
  have hu : u32 (t.count + (frameAt t.data t.count).size + H) = t.used H :=
    u32_of_lt (by simp only [GstThread.used, GstThread.frame] at hfit ⊢; omega)
  have hn : u32 (t.used H + extra) = t.used H + extra := u32_of_lt (by omega)
  have hc : u32 (2 * (t.used H + extra)) = 2 * (t.used H + extra) := u32_of_lt hfit
  rw [hu, hn, hc] at h
  split at h
  · cases h; exact le_refl _
  · next hnge =>
    simp only [Option.bind_eq_some, Option.some.injEq] at h
    obtain ⟨newData, -, h⟩ := h
    subst h
    simp only
    omega

theorem nilFill_weak (n : Nat) : ∀ (d d' : List Cell) (cur : Nat), nilFill d cur n = some d' →
    d'.length = d.length ∧ ∀ i, i < cur → d'[i]? = d[i]? := by
  induction n with
  | zero =>
    intro d d' cur h
    cases h
    exact ⟨rfl, fun _ _ => rfl⟩
  | succ n ih =>
    intro d d' cur h
    simp only [nilFill, Option.bind_eq_bind, Option.bind_eq_some] at h
    obtain ⟨d1, hw, h⟩ := h
    obtain ⟨hlt, hd1⟩ := writeCell_eq_some hw
    subst hd1
    obtain ⟨hlen, hsame⟩ := ih _ _ _ h
    refine ⟨by simpa using hlen, fun i hi => ?_⟩
    rw [hsame i (by omega), List.getElem?_set_ne (by omega)]

theorem pushnil_weak {H : Nat} {t t' : GstThread} {n : Nat}
    (h : gst_thread_pushnil H t n = some t') (hfit : t.used H < 4294967296) :
    frameOk H t'.data t'.count ∧ t'.count = t.count ∧ t'.status = t.status ∧
      t'.parent = t.parent ∧ t'.frame = { t.frame with size := u32 (t.frame.size + n) } ∧
      (t.data.length = t.capacity → t'.data.length = t'.capacity) ∧
      (∀ i, i + 1 < t.count → t'.data[i]? = t.data[i]?) ∧
      (2 * (t.used H + n) < 4294967296 → t.capacity ≤ t'.capacity) := by
  simp only [gst_thread_pushnil, Option.bind_eq_bind, Option.bind_eq_some] at h
  obtain ⟨t1, h1, fr, hr, d2, hd2, d3, hw, h⟩ := h
  obtain ⟨hok, hok1, hc1, hs1, hp1, hsame1, hl1⟩ := ensure_extra_weak h1 hfit
  obtain ⟨-, hfr⟩ := readFrame_eq_some hr
  obtain ⟨hlen2, hsame2⟩ := nilFill_weak _ _ _ _ hd2
  obtain ⟨hok2, hd3⟩ := writeFrame_eq_some hw
  have hpos : 0 < t1.count := lt_of_lt_of_le hok1.1 hok1.2.1
  have hfr1 : frameAt t1.data t1.count = t.frame := by
    rw [hc1]; exact frameAt_congr (hsame1 _ (by rw [← hc1]; omega))
  have hfr2 : frameAt d2 t1.count = t.frame := by
    rw [← hfr1]; exact frameAt_congr (hsame2 _ (by omega))
  simp only [Option.some.injEq] at h
  subst h hd3
  refine ⟨⟨hok2.1, hok2.2.1, by simpa using hok2.2.2⟩, hc1, hs1, hp1, ?_, ?_, ?_, ?_⟩
  · show frameAt _ t1.count = _
    rw [frameAt_set_self (by have := hok2.2.2; omega), hfr2]
  · intro hl
    have := hl1 hl
    simp only [List.length_set]
    omega
  · intro i hi
    simp only
    rw [List.getElem?_set_ne (by omega), hsame2 i (by omega), hsame1 i (by omega)]
  · intro hf
    show t.capacity ≤ t1.capacity
    exact ensure_extra_cap h1 hf

theorem tuplepack_weak {H : Nat} {t t' : GstThread} {n : Nat}
    (h : gst_thread_tuplepack H t n = some t') (hfit : t.used H < 4294967296) :
    frameOk H t'.data t'.count ∧ t'.count = t.count ∧ t'.status = t.status ∧
      t'.parent = t.parent ∧
      (∃ s, t'.frame = { t.frame with size := s } ∧ s ≤ t.frame.size + n + 1) ∧
      (t.data.length = t.capacity → t'.data.length = t'.capacity) ∧
      (∀ i, i + 1 < t.count → t'.data[i]? = t.data[i]?) ∧
      (2 * (t.used H + n + 1) < 4294967296 → t.capacity ≤ t'.capacity) := by
  simp only [gst_thread_tuplepack, Option.bind_eq_bind, Option.bind_eq_some] at h
  obtain ⟨fr, hr, h⟩ := h
  obtain ⟨hok, hfr⟩ := readFrame_eq_some hr
  have hpos : 0 < t.count := lt_of_lt_of_le hok.1 hok.2.1
  split at h
  · simp only [Option.bind_eq_some, Option.some.injEq] at h
    obtain ⟨t1, h1, d2, hw2, d3, hw3, h⟩ := h
    next hgt =>
    obtain ⟨hok1, hc1, hs1, hp1, hfr1, hl1, hb1, hcap1⟩ := pushnil_weak h1 hfit
    obtain ⟨hlt2, hd2⟩ := writeCell_eq_some hw2
    obtain ⟨hok3, hd3⟩ := writeFrame_eq_some hw3
    subst h hd3 hd2
    have hlen := hok3.2.2
    simp only [List.length_set] at hlen
    refine ⟨⟨hok3.1, hok3.2.1, by simpa using hlen⟩, hc1, hs1, hp1, ⟨u32 (n + 1), ?_, ?_⟩, ?_,
      ?_, ?_⟩
    · show frameAt _ t1.count = _
      rw [frameAt_set_self (by simp only [List.length_set]; omega),
        frameAt_set_ne (by omega)]
      show ({ t1.frame with size := u32 (n + 1) } : GstFrame) = _
      rw [hfr1]
    · have := u32_le (n + 1); omega
    · intro hl
      have := hl1 hl
      simp only [List.length_set]
      omega
    · intro i hi
      simp only
      rw [List.getElem?_set_ne (by omega), List.getElem?_set_ne (by omega), hb1 i hi]
    · intro hf
      show t.capacity ≤ t1.capacity
      apply hcap1
      have hfr' := congrArg GstFrame.size hfr
      have hle := u32_le (n - fr.size + 1)
      simp only [GstThread.used, GstThread.frame] at hf ⊢
      omega
  · simp only [Option.bind_eq_some, Option.some.injEq] at h
    obtain ⟨tup, -, d2, hw2, h⟩ := h
    obtain ⟨hlt2, hd2⟩ := writeCell_eq_some hw2
    subst h hd2
    refine ⟨⟨hok.1, hok.2.1, by simpa using hok.2.2⟩, rfl, rfl, rfl, ⟨t.frame.size, ?_, ?_⟩,
      ?_, ?_, fun _ => le_refl _⟩
    · show frameAt _ t.count = _
      rw [frameAt_set_ne (by omega)]
      rfl
    · omega
    · intro hl
      simp only [List.length_set]
      exact hl
    · intro i hi
      simp only
      rw [List.getElem?_set_ne (by omega)]

theorem endframe_weak {H : Nat} {t t' : GstThread}
    (h : gst_thread_endframe H t = some t') (hfit : t.used H < 4294967296) :
    frameOk H t'.data t'.count ∧ t'.count = t.count ∧ t'.status = t.status ∧
      t'.parent = t.parent ∧
      (∃ s pc args, t'.frame = { t.frame with size := s, pc := pc, args := args } ∧
        s ≤ t.frame.size + endframeRoom t.frame.callee) ∧
      (t.data.length = t.capacity → t'.data.length = t'.capacity) ∧
      (∀ i, i + 1 < t.count → t'.data[i]? = t.data[i]?) ∧
      (2 * (t.used H + endframeRoom t.frame.callee) < 4294967296 →
        t.capacity ≤ t'.capacity) := by
  have hr : ∃ fr, readFrame H t.data t.count = some fr := by
    cases hrd : readFrame H t.data t.count with
    | none => simp [gst_thread_endframe, hrd] at h
    | some fr => exact ⟨fr, rfl⟩
  obtain ⟨fr, hr⟩ := hr
  obtain ⟨hok, hfr⟩ := readFrame_eq_some hr
  have hpos : 0 < t.count := lt_of_lt_of_le hok.1 hok.2.1
  have hlen := hok.2.2
  cases hc : t.frame.callee with
  | function fn =>
    have hc' : fr.callee = GstValue.function fn := by rw [← hfr]; exact hc
    have hfrs : fr.size = t.frame.size := by rw [← hfr]; rfl
    simp only [gst_thread_endframe, hr, Option.bind_eq_bind, Option.some_bind, hc',
      Option.bind_eq_some] at h
    obtain ⟨d1, hw1, h⟩ := h
    obtain ⟨-, hd1⟩ := writeFrame_eq_some hw1
    have hfr1 : GstThread.frame { t with data := d1 } =
        { t.frame with pc := some fn.fdef.byteCode } := by
      show frameAt d1 t.count = _
      rw [← hd1, frameAt_set_self (by omega)]
      rfl
    have hused1 : GstThread.used H { t with data := d1 } = t.used H := by
      simp only [GstThread.used, hfr1]
    have hfit1 : GstThread.used H { t with data := d1 } < 4294967296 := by
      rw [hused1]; exact hfit
    have hlen1 : d1.length = t.data.length := by rw [← hd1]; simp
    have hb1 : ∀ i, i + 1 < t.count → d1[i]? = t.data[i]? := by
      intro i hi
      rw [← hd1, List.getElem?_set_ne (by omega)]
    -- the middle step and the final write of `args`
    have hfin : ∀ (t2 : GstThread) (s : Nat), frameOk H t2.data t2.count → t2.count = t.count →
        t2.status = t.status → t2.parent = t.parent →
        t2.frame = { t.frame with size := s, pc := some fn.fdef.byteCode } →
        s ≤ t.frame.size + endframeRoom (GstValue.function fn) →
        (t.data.length = t.capacity → t2.data.length = t2.capacity) →
        (∀ i, i + 1 < t.count → t2.data[i]? = t.data[i]?) →
        (2 * (t.used H + endframeRoom (GstValue.function fn)) < 4294967296 →
          t.capacity ≤ t2.capacity) →
        (∃ a, (writeFrame H t2.data t2.count fun h => { h with args := u32 (h.size + H) }) =
            some a ∧ some { t2 with data := a } = some t') →
        frameOk H t'.data t'.count ∧ t'.count = t.count ∧ t'.status = t.status ∧
          t'.parent = t.parent ∧
          (∃ s pc args, t'.frame = { t.frame with size := s, pc := pc, args := args } ∧
            s ≤ t.frame.size + endframeRoom (GstValue.function fn)) ∧
          (t.data.length = t.capacity → t'.data.length = t'.capacity) ∧
          (∀ i, i + 1 < t.count → t'.data[i]? = t.data[i]?) ∧
          (2 * (t.used H + endframeRoom (GstValue.function fn)) < 4294967296 →
            t.capacity ≤ t'.capacity) := by
      intro t2 s hok2 hc2 hs2 hp2 hfr2 hsb hl2 hb2 hcap2 h3
      obtain ⟨d3, hw3, h3⟩ := h3
      simp only [Option.some.injEq] at h3
      obtain ⟨-, hd3⟩ := writeFrame_eq_some hw3
      subst h3 hd3
      have hpos2 : 0 < t2.count := by rw [hc2]; exact hpos
      refine ⟨⟨hok2.1, hok2.2.1, by simpa using hok2.2.2⟩, hc2, hs2, hp2,
        ⟨s, some fn.fdef.byteCode, u32 (s + H), ?_, hsb⟩, ?_, ?_, hcap2⟩
      · show frameAt _ t2.count = _
        rw [frameAt_set_self (by have := hok2.2.2; omega)]
        show ({ t2.frame with args := u32 (t2.frame.size + H) } : GstFrame) = _
        rw [hfr2]
      · intro hl
        have := hl2 hl
        simp only [List.length_set]
        exact this
      · intro i hi
        simp only
        rw [List.getElem?_set_ne (by omega), hb2 i hi]
    split at h
    · simp only [Option.bind_eq_some] at h
      obtain ⟨t2, h2, h3⟩ := h
      obtain ⟨hok2, hc2, hs2, hp2, ⟨s, hfr2, hsb⟩, hl2, hb2, hcap2⟩ := tuplepack_weak h2 hfit1
      refine hfin t2 s hok2 hc2 hs2 hp2 (by rw [hfr2, hfr1]) ?_
        (fun hl => hl2 (by show d1.length = t.capacity; omega))
        (fun i hi => (hb2 i hi).trans (hb1 i hi)) ?_ h3
      · rw [hfr1] at hsb
        simp only [endframeRoom]
        simp only at hsb
        omega
      · intro hf
        show t.capacity ≤ t2.capacity
        apply hcap2
        rw [hused1]
        simp only [endframeRoom] at hf
        omega
    · split at h
      · simp only [Option.bind_eq_some] at h
        obtain ⟨t2, h2, h3⟩ := h
        obtain ⟨hok2, hc2, hs2, hp2, hfr2, hl2, hb2, hcap2⟩ := pushnil_weak h2 hfit1
        refine hfin t2 _ hok2 hc2 hs2 hp2 (by rw [hfr2, hfr1]) ?_
          (fun hl => hl2 (by show d1.length = t.capacity; omega))
          (fun i hi => (hb2 i hi).trans (hb1 i hi)) ?_ h3
        · refine le_trans (u32_le _) ?_
          simp only [endframeRoom]
          omega
        · intro hf
          show t.capacity ≤ t2.capacity
          apply hcap2
          rw [hused1]
          simp only [endframeRoom] at hf
          omega
      · exact hfin { t with data := d1 } t.frame.size
          ⟨hok.1, hok.2.1, by rw [← hd1]; simpa using hok.2.2⟩ rfl rfl rfl (by rw [hfr1])
          (Nat.le_add_right _ _) (fun hl => by show d1.length = t.capacity; omega)
          hb1 (fun _ => le_refl _) (Option.bind_eq_some.mp h)
  | nil =>
    have h' := h
    simp only [gst_thread_endframe, hr, Option.bind_eq_bind, Option.some_bind] at h'
    have hc' : fr.callee = GstValue.nil := by rw [← hfr]; exact hc
    simp only [hc', Option.some.injEq] at h'
    subst h'
    exact ⟨hok, rfl, rfl, rfl, ⟨t.frame.size, t.frame.pc, t.frame.args, rfl,
      Nat.le_add_right _ _⟩, fun hl => hl, fun _ _ => rfl, fun _ => le_refl _⟩
  | tuple xs =>
    have h' := h
    simp only [gst_thread_endframe, hr, Option.bind_eq_bind, Option.some_bind] at h'
    have hc' : fr.callee = GstValue.tuple xs := by rw [← hfr]; exact hc
    simp only [hc', Option.some.injEq] at h'
    subst h'
    exact ⟨hok, rfl, rfl, rfl, ⟨t.frame.size, t.frame.pc, t.frame.args, rfl,
      Nat.le_add_right _ _⟩, fun hl => hl, fun _ _ => rfl, fun _ => le_refl _⟩
  | other a b =>
    have h' := h
    simp only [gst_thread_endframe, hr, Option.bind_eq_bind, Option.some_bind] at h'
    have hc' : fr.callee = GstValue.other a b := by rw [← hfr]; exact hc
    simp only [hc', Option.some.injEq] at h'
    subst h'
    exact ⟨hok, rfl, rfl, rfl, ⟨t.frame.size, t.frame.pc, t.frame.args, rfl,
      Nat.le_add_right _ _⟩, fun hl => hl, fun _ _ => rfl, fun _ => le_refl _⟩

/-! ## `gst_thread` -/

theorem gst_thread_weak {H : Nat} {vm : Gst} {callee : GstValue} {cap : Nat} {t : GstThread}
    (h : gst_thread H vm callee cap = some t) (hH : 2 * H < 4294967296) :
    frameOk H t.data t.count ∧ t.count = H ∧ t.status = GstThreadStatus.pending ∧
      t.parent = vm.thread ∧ t.data.length = t.capacity ∧
      ∃ s pc args, t.frame =
        { size := s, prevsize := 0, ret := 0, args := args, pc := pc, env := none,
          callee := callee } ∧ s ≤ endframeRoom callee := by
  simp only [gst_thread, Option.bind_eq_bind, Option.bind_eq_some, Option.some.injEq] at h
  obtain ⟨d0, hw0, t1, h1, h⟩ := h
  obtain ⟨hok0, hd0⟩ := writeFrame_eq_some hw0
  have hfr0 : frameAt d0 H =
      { size := 0, prevsize := 0, ret := 0, args := 0, pc := none, env := none,
        callee := callee } := by
    rw [← hd0]
    exact frameAt_set_self (by have := hok0.1; have := hok0.2.2; omega) _
  have hlen0 : d0.length = (if cap < H then H else cap) := by
    rw [← hd0]; simp [gst_alloc]
  obtain ⟨hok1, hc1, hs1, hp1, ⟨s, pc, args, hfr1, hsb⟩, hl1, -, -⟩ := endframe_weak h1 (by
    simp only [GstThread.used, GstThread.frame, hfr0]; omega)
  subst h
  refine ⟨hok1, hc1, hs1, rfl, hl1 hlen0, s, pc, args, ?_, ?_⟩
  · show t1.frame = _
    rw [hfr1]
    simp only [GstThread.frame, hfr0]
  · simp only [GstThread.frame, hfr0] at hsb
    omega

/-! ## Frame chains and `gst_thread_countframes` -/

theorem FrameChain.ok {H : Nat} {d : List Cell} {s k : Nat} (h : FrameChain H d s k) :
    frameOk H d s := by
  cases h with
  | root hok _ _ => exact hok
  | next _ hok _ _ => exact hok

theorem FrameChain.depth_le {H : Nat} {d : List Cell} {s k : Nat} (h : FrameChain H d s k) :
    k + H ≤ s := by
  induction h with
  | root _ _ _ => omega
  | next h0 hok _ _ ih => have := hok.1; omega

theorem FrameChain.congr {H : Nat} {d d' : List Cell} {s k : Nat} (h : FrameChain H d s k) :
    (∀ i, i + 1 < s → d'[i]? = d[i]?) → frameOk H d' s →
    (frameAt d' s).prevsize = (frameAt d s).prevsize → (frameAt d' s).env = (frameAt d s).env →
    FrameChain H d' s k := by
  induction h with
  | root hok hp he =>
    intro _ hok' hp' he'
    exact FrameChain.root hok' (hp'.trans hp) (he'.trans he)
  | next h0 hok hp he ih =>
    rename_i s0 k0
    intro hsame hok' hp' he'
    have hs0 := h0.ok
    have hH := hs0.1
    have hHs := hs0.2.1
    have hfr : frameAt d' s0 = frameAt d s0 := frameAt_congr (hsame (s0 - 1) (by omega))
    have h0' : FrameChain H d' s0 k0 :=
      ih (fun i hi => hsame i (by omega))
        ⟨hs0.1, hs0.2.1, by have := hok'.2.2; omega⟩ (by rw [hfr]) (by rw [hfr])
    have hnext := FrameChain.next h0' (by rw [hfr]; exact hok')
      (by rw [hfr]; exact hp'.trans hp) (by rw [hfr]; exact he'.trans he)
    rw [hfr] at hnext
    exact hnext

theorem FrameChain.step {H : Nat} {t t' : GstThread} {k : Nat}
    (h : FrameChain H t.data t.count k) (hstep : FrameStep H t t')
    (hp : t'.frame.prevsize = t.frame.prevsize) (he : t'.frame.env = t.frame.env) :
    FrameChain H t'.data t'.count k := by
  rw [hstep.count]
  refine h.congr hstep.below ?_ ?_ ?_
  · have := hstep.valid.1; rw [hstep.count] at this; exact this
  · have := hp; simp only [GstThread.frame, hstep.count] at this; exact this
  · have := he; simp only [GstThread.frame, hstep.count] at this; exact this

theorem countLoop_chain {H : Nat} {d : List Cell} {s k : Nat} (h : FrameChain H d s k) :
    s < 4294967296 → ∀ last fuel, s ≤ last →
    countLoop H d last (fuel + k) H 0 = countLoop H d last fuel s k := by
  induction h with
  | root _ _ _ => intro _ last fuel _; rfl
  | next h0 hok hp he ih =>
    rename_i s0 k0
    intro hlt last fuel hle
    have hs0 := h0.ok
    have hH := hs0.1
    have hk := h0.depth_le
    have h1 := ih (by omega) last (fuel + 1) (by omega)
    have hstep : u32 ((frameAt d s0).size + H) = (frameAt d s0).size + H := u32_of_lt (by omega)
    have hcnt : u32 (k0 + 1) = k0 + 1 := u32_of_lt (by omega)
    have hfuel : fuel + (k0 + 1) = fuel + 1 + k0 := by omega
    rw [hfuel, h1]
    have hle0 : s0 ≤ last := by omega
    simp only [countLoop, if_pos hle0, readFrame_of_ok hs0, Option.bind_eq_bind,
      Option.some_bind, hstep, hcnt]
    rw [Nat.add_assoc]

theorem countframes_chain {H : Nat} {t : GstThread} {k : Nat}
    (h : FrameChain H t.data t.count k) (hfit : t.used H < 4294967296) (fuel : Nat)
    (hfuel : k + 2 ≤ fuel) : gst_thread_countframes H fuel t = some (k + 1) := by
  obtain ⟨f, rfl⟩ : ∃ f, fuel = f + 2 + k := ⟨fuel - (k + 2), by omega⟩
  have hok := h.ok
  have hH := hok.1
  have hk := h.depth_le
  simp only [GstThread.used, GstThread.frame] at hfit
  have hstep : u32 ((frameAt t.data t.count).size + H) = (frameAt t.data t.count).size + H :=
    u32_of_lt (by omega)
  have hcnt : u32 (k + 1) = k + 1 := u32_of_lt (by omega)
  have hgt : ¬ t.count + ((frameAt t.data t.count).size + H) ≤ t.count := by
    have := hok.1; omega
  unfold gst_thread_countframes
  rw [countLoop_chain h (by omega) t.count (f + 2) (le_refl _)]
  simp only [countLoop, le_refl, if_true, readFrame_of_ok hok, Option.bind_eq_bind,
    Option.some_bind, hstep, hcnt, if_neg hgt]

theorem FrameChain.inv {H : Nat} {d : List Cell} {s k : Nat} (h : FrameChain H d s k) :
    (frameAt d s).env = none ∧
    ((k = 0 ∧ s = H ∧ (frameAt d s).prevsize = 0) ∨
     ∃ s0 k0, k = k0 + 1 ∧ s = s0 + (frameAt d s0).size + H ∧ FrameChain H d s0 k0 ∧
       (frameAt d s).prevsize = (frameAt d s0).size) := by
  cases h with
  | root hok hp he => exact ⟨he, Or.inl ⟨rfl, rfl, hp⟩⟩
  | next h0 hok hp he => exact ⟨he, Or.inr ⟨_, _, rfl, rfl, h0, hp⟩⟩

theorem popFrames_count {H : Nat} : ∀ (j k : Nat) (vm : Gst) (t : GstThread),
    FrameChain H t.data t.count k → t.used H < 4294967296 → j ≤ k + 1 →
    ∃ vm' t', popFrames H j vm t = some (vm', t') ∧
      ∀ fuel, k + 2 - j ≤ fuel → gst_thread_countframes H fuel t' = some (k + 1 - j) := by
  intro j
  induction j with
  | zero =>
    intro k vm t hch hfit _
    exact ⟨vm, t, rfl, fun fuel hf => countframes_chain hch hfit fuel (by omega)⟩
  | succ j ih =>
    intro k vm t hch hfit hj
    have hok := hch.ok
    have hH := hok.1
    obtain ⟨henv, hinv⟩ := hch.inv
    have hcount : t.count < 4294967296 := by simp only [GstThread.used] at hfit; omega
    rcases hinv with ⟨hk, hs, hp⟩ | ⟨s0, k0, hk, hs, hch0, hp⟩
    · have hpop := popframe_spec vm hok (by show H + (frameAt t.data t.count).prevsize ≤ _; omega)
        hcount (fun e he => by
          have : (frameAt t.data t.count).env = some e := he
          rw [henv] at this; exact absurd this (by simp))
      have hz : t.count - (H + t.frame.prevsize) = 0 := by
        show t.count - (H + (frameAt t.data t.count).prevsize) = 0
        omega
      rw [hz] at hpop
      have hj0 : j = 0 := by omega
      subst hj0
      refine ⟨_, { t with count := 0 }, by
        simp only [popFrames, hpop, Option.bind_eq_bind, Option.some_bind]; rfl, ?_⟩
      intro fuel hf
      obtain ⟨f, rfl⟩ : ∃ f, fuel = f + 1 := ⟨fuel - 1, by omega⟩
      have hgt : ¬ H ≤ 0 := by omega
      simp only [gst_thread_countframes, countLoop, if_neg hgt, hk]
    · have hpop := popframe_spec vm hok (by show H + (frameAt t.data t.count).prevsize ≤ _; omega)
        hcount (fun e he => by
          have : (frameAt t.data t.count).env = some e := he
          rw [henv] at this; exact absurd this (by simp))
      have hz : t.count - (H + t.frame.prevsize) = s0 := by
        show t.count - (H + (frameAt t.data t.count).prevsize) = s0
        omega
      rw [hz] at hpop
      obtain ⟨vm', t', h', hcnt'⟩ := ih k0 _ { t with count := s0 } hch0 (by
        simp only [GstThread.used, GstThread.frame]; omega) (by omega)
      refine ⟨vm', t', ?_, ?_⟩
      · simp only [popFrames, hpop, Option.bind_eq_bind, Option.some_bind]
        exact h'
      · intro fuel hf
        have := hcnt' fuel (by omega)
        rw [this]
        congr 1
        omega

/-! ## Nested calls keep the chain -/

theorem runLevel_spec {H : Nat} {t : GstThread} {k : Nat} (l : Level) (hv : Valid H t)
    (hch : FrameChain H t.data t.count k) (hfit : 2 * (t.used H + l.room H) < 4294967296) :
    ∃ t', runLevel H t l = some t' ∧ Valid H t' ∧ FrameChain H t'.data t'.count (k + 1) ∧
      t'.used H ≤ t.used H + l.room H := by
  have hH := hv.1.1
  have hcnt := hv.1.2.1
  simp only [Level.room] at hfit ⊢
  obtain ⟨t1, h1, hv1, hc1, -, -, -, hprev1, henv1, hcallee1, hsz1, -, hsame1⟩ :=
    beginframe_spec l.callee l.arity hv (by omega)
  have hused1 : t1.used H = t.used H + H + l.arity := by
    simp only [GstThread.used, hc1, hsz1]; omega
  have hfr : frameAt t1.data t.count = frameAt t.data t.count :=
    frameAt_congr (hsame1 (t.count - 1) (by omega))
  have hch1 : FrameChain H t1.data t1.count (k + 1) := by
    have hbase : FrameChain H t1.data t.count k :=
      hch.congr (fun i hi => hsame1 i (by omega))
        ⟨hH, hcnt, by have := hv1.1.2.2; omega⟩ (by rw [hfr]) (by rw [hfr])
    have hoff : t.count + (frameAt t1.data t.count).size + H = t1.count := by
      rw [hfr, hc1]; rfl
    have hnext := FrameChain.next hbase (by rw [hoff]; exact hv1.1)
      (by rw [hoff, hfr]; exact hprev1) (by rw [hoff]; exact henv1)
    rw [hoff] at hnext
    exact hnext
  obtain ⟨t2, h2, hstep2, hfr2⟩ := pushAll_spec l.pushes t1 hv1 (by omega)
  have hused2 : t2.used H = t.used H + H + l.arity + l.pushes.length := by
    simp only [GstThread.used, hfr2, hstep2.count, hc1, hsz1]; omega
  have hch2 : FrameChain H t2.data t2.count (k + 1) :=
    hch1.step hstep2 (by rw [hfr2]) (by rw [hfr2])
  cases hfin : l.finish with
  | false =>
    refine ⟨t2, ?_, hstep2.valid, hch2, by omega⟩
    simp [runLevel, h1, h2, hfin]
  | true =>
    have hcallee2 : t2.frame.callee = l.callee := by rw [hfr2]; exact hcallee1
    obtain ⟨t3, h3, hstep3, hprev3, henv3, -, -, -, hsz3⟩ :=
      endframe_spec hstep2.valid (by rw [hcallee2]; omega)
    refine ⟨t3, ?_, hstep3.valid, hch2.step hstep3 hprev3 henv3, ?_⟩
    · simp [runLevel, h1, h2, hfin, h3]
    · rw [hcallee2] at hsz3
      simp only [GstThread.used, hstep3.count] at hused2 ⊢
      omega

theorem runLevels_spec {H : Nat} (ls : List Level) : ∀ (t : GstThread) (k : Nat), Valid H t →
    FrameChain H t.data t.count k →
    2 * (t.used H + (ls.map (Level.room H)).sum) < 4294967296 →
    ∃ t', runLevels H t ls = some t' ∧ Valid H t' ∧
      FrameChain H t'.data t'.count (k + ls.length) ∧
      t'.used H ≤ t.used H + (ls.map (Level.room H)).sum := by
  induction ls with
  | nil =>
    intro t k hv hch _
    exact ⟨t, rfl, hv, hch, by simp⟩
  | cons l ls ih =>
    intro t k hv hch hfit
    simp only [List.map_cons, List.sum_cons] at hfit ⊢
    obtain ⟨t1, h1, hv1, hch1, hused1⟩ := runLevel_spec l hv hch (by omega)
    obtain ⟨t2, h2, hv2, hch2, hused2⟩ := ih t1 (k + 1) hv1 hch1 (by omega)
    refine ⟨t2, ?_, hv2, ?_, by omega⟩
    · simp only [runLevels, h1, Option.bind_eq_bind, Option.some_bind, h2]
    · have hlen : k + (l :: ls).length = k + 1 + ls.length := by
        simp only [List.length_cons]; omega
      rw [hlen]; exact hch2

theorem gst_thread_spec {H : Nat} (vm : Gst) (callee : GstValue) {cap : Nat} (hH : 0 < H)
    (hcap : 2 * H ≤ cap) (hfit : 2 * (2 * H + endframeRoom callee) < 4294967296) :
    ∃ t, gst_thread H vm callee cap = some t ∧ Valid H t ∧ FrameChain H t.data t.count 0 ∧
      t.count = H ∧ t.used H ≤ 2 * H + endframeRoom callee := by
  have hnlt : ¬ cap < H := by omega
  have hok0 : frameOk H (gst_alloc cap) H := ⟨hH, le_refl _, by simp [gst_alloc]; omega⟩
  generalize hd0 : (gst_alloc cap).set (H - 1) (Cell.frame
    { size := 0, prevsize := 0, ret := 0, args := 0, pc := none, env := none,
      callee := callee }) = d0
  have hlen0 : d0.length = cap := by rw [← hd0]; simp [gst_alloc]
  have hfr0 : frameAt d0 H =
      { size := 0, prevsize := 0, ret := 0, args := 0, pc := none, env := none,
        callee := callee } := by
    rw [← hd0]; exact frameAt_set_self (by simp [gst_alloc]; omega) _
  have hv0 : Valid H
      { data := d0, capacity := cap, count := H, status := GstThreadStatus.pending, parent := none } := by
    refine ⟨⟨hH, le_refl _, by simp only; omega⟩, hlen0, ?_⟩
    simp only [GstThread.used, GstThread.frame, hfr0]; omega
  obtain ⟨t1, h1, hstep1, hprev1, henv1, -, -, -, hsz1⟩ := endframe_spec hv0 (by
    simp only [GstThread.used, GstThread.frame, hfr0]; omega)
  simp only [GstThread.frame, hfr0] at hprev1 henv1 hsz1
  have hc1 : t1.count = H := hstep1.count
  have hv1 := hstep1.valid
  refine ⟨{ t1 with parent := vm.thread }, ?_, hv1, ?_, hc1, ?_⟩
  · simp only [gst_thread, if_neg hnlt, writeFrame_of_ok hok0, hd0, Option.bind_eq_bind,
      Option.some_bind, h1]
  · show FrameChain H t1.data t1.count 0
    rw [hc1]
    exact FrameChain.root (by have := hv1.1; rw [hc1] at this; exact this)
      (by rw [← hc1]; exact hprev1) (by rw [← hc1]; exact henv1)
  · show t1.count + (frameAt t1.data t1.count).size + H ≤ _
    omega

/-! ## Fibers fresh from `gst_thread` -/

theorem gst_thread_fresh {H : Nat} {vm : Gst} {callee : GstValue} {cap : Nat} {t : GstThread}
    (h : gst_thread H vm callee cap = some t)
    (hfit : 2 * H + endframeRoom callee < 4294967296) :
    FrameChain H t.data t.count 0 ∧ t.count = H ∧ t.data.length = t.capacity ∧
      t.used H ≤ 2 * H + endframeRoom callee := by
  obtain ⟨hok, hc, -, -, hlen, s, pc, args, hfr, hs⟩ := gst_thread_weak h (by omega)
  refine ⟨?_, hc, hlen, ?_⟩
  · have hp : (frameAt t.data t.count).prevsize = 0 := by
      show t.frame.prevsize = 0; rw [hfr]
    have he : (frameAt t.data t.count).env = none := by
      show t.frame.env = none; rw [hfr]
    rw [hc] at hok hp he ⊢
    exact FrameChain.root hok hp he
  · simp only [GstThread.used, hfr, hc]; omega

/-- A nested call that returned, on a fiber whose `capacity` is the size of
its allocation, shows that the capacity invariant held before it. -/
theorem runLevel_valid {H : Nat} {t t' : GstThread} {l : Level}
    (h : runLevel H t l = some t') (hlen : t.data.length = t.capacity)
    (hfit : t.used H + l.room H < 4294967296) : Valid H t := by
  simp only [runLevel, gst_thread_beginframe, Option.bind_eq_bind, Option.bind_eq_some] at h
  obtain ⟨t1, ⟨t2, h2, -⟩, -⟩ := h
  simp only [Level.room] at hfit
  have hu : u32 (H + l.arity + 4) = H + l.arity + 4 := u32_of_lt (by omega)
  rw [hu] at h2
  exact ensure_extra_valid h2 (by omega) hlen

/-! ## The forward walk of `gst_thread_countframes` on any fiber -/

theorem ForwardWalk.walk_depth_le {H : Nat} {d : List Cell} {s k : Nat} (h : ForwardWalk H d s k) :
    k + H ≤ s := by
  induction h with
  | bottom => omega
  | step h0 hok _ ih => have := hok.1; omega

theorem countLoop_walk {H : Nat} {d : List Cell} {s k : Nat} (h : ForwardWalk H d s k) :
    s < 4294967296 → ∀ last fuel, s ≤ last →
    countLoop H d last (fuel + k) H 0 = countLoop H d last fuel s k := by
  induction h with
  | bottom => intro _ last fuel _; rfl
  | step h0 hok hsz ih =>
    rename_i s0 k0
    intro hlt last fuel hle
    have hH := hok.1
    have hk := h0.walk_depth_le
    have h1 := ih (by omega) last (fuel + 1) (by omega)
    have hstep : u32 ((frameAt d s0).size + H) = (frameAt d s0).size + H := u32_of_lt hsz
    have hcnt : u32 (k0 + 1) = k0 + 1 := u32_of_lt (by omega)
    have hfuel : fuel + (k0 + 1) = fuel + 1 + k0 := by omega
    rw [hfuel, h1]
    have hle0 : s0 ≤ last := by omega
    simp only [countLoop, if_pos hle0, readFrame_of_ok hok, Option.bind_eq_bind,
      Option.some_bind, hstep, hcnt]
    rw [Nat.add_assoc]

theorem countframes_walk {H : Nat} {t : GstThread} {s k : Nat}
    (hw : ForwardWalk H t.data s k) (hok : frameOk H t.data s) (hle : s ≤ t.count)
    (hover : t.count < s + (frameAt t.data s).size + H)
    (hfit : s + (frameAt t.data s).size + H < 4294967296) (fuel : Nat)
    (hfuel : k + 2 ≤ fuel) : gst_thread_countframes H fuel t = some (k + 1) := by
  obtain ⟨f, rfl⟩ : ∃ f, fuel = f + 2 + k := ⟨fuel - (k + 2), by omega⟩
  have hH := hok.1
  have hk := hw.walk_depth_le
  have hstep : u32 ((frameAt t.data s).size + H) = (frameAt t.data s).size + H :=
    u32_of_lt (by omega)
  have hcnt : u32 (k + 1) = k + 1 := u32_of_lt (by omega)
  have hgt : ¬ s + ((frameAt t.data s).size + H) ≤ t.count := by omega
  unfold gst_thread_countframes
  rw [countLoop_walk hw (by omega) t.count (f + 2) hle]
  simp only [countLoop, if_pos hle, readFrame_of_ok hok, Option.bind_eq_bind,
    Option.some_bind, hstep, hcnt, if_neg hgt]

theorem countLoop_total {H : Nat} {d : List Cell} {last : Nat} (hH : 0 < H)
    (hlast : last < 4294967296) (hlen : last ≤ d.length)
    (hsz : ∀ s, s ≤ last → (frameAt d s).size + H < 4294967296) :
    ∀ (m stack cnt : Nat), last + 1 - stack ≤ m → H ≤ stack → cnt * H + H ≤ stack →
      cnt * H ≤ last →
      ∃ n, (∀ fuel, m + 1 ≤ fuel → countLoop H d last fuel stack cnt = some n) ∧
        cnt ≤ n ∧ n * H ≤ last ∧ (stack ≤ last → cnt + 1 ≤ n) := by
  intro m
  induction m with
  | zero =>
    intro stack cnt hm _ _ hc
    have hgt : ¬ stack ≤ last := by omega
    refine ⟨cnt, ?_, le_refl _, hc, fun h => absurd h hgt⟩
    intro fuel hf
    obtain ⟨f, rfl⟩ : ∃ f, fuel = f + 1 := ⟨fuel - 1, by omega⟩
    simp only [countLoop, if_neg hgt]
  | succ m ih =>
    intro stack cnt hm hs hj hc
    by_cases hle : stack ≤ last
    · have hok : frameOk H d stack := ⟨hH, hs, by omega⟩
      have hstep : u32 ((frameAt d stack).size + H) = (frameAt d stack).size + H :=
        u32_of_lt (hsz stack hle)
      have hmul : (cnt + 1) * H = cnt * H + H := by rw [Nat.add_mul, Nat.one_mul]
      have hcnt : u32 (cnt + 1) = cnt + 1 := by
        apply u32_of_lt
        have : cnt + 1 ≤ (cnt + 1) * H := Nat.le_mul_of_pos_right _ hH
        omega
      obtain ⟨n, hn, hle1, hbound, -⟩ :=
        ih (stack + ((frameAt d stack).size + H)) (cnt + 1) (by omega) (by omega)
          (by rw [hmul]; omega) (by rw [hmul]; omega)
      refine ⟨n, ?_, by omega, hbound, fun _ => hle1⟩
      intro fuel hf
      obtain ⟨f, rfl⟩ : ∃ f, fuel = f + 1 := ⟨fuel - 1, by omega⟩
      simp only [countLoop, if_pos hle, readFrame_of_ok hok, Option.bind_eq_bind,
        Option.some_bind, hstep, hcnt]
      exact hn f (by omega)
    · refine ⟨cnt, ?_, le_refl _, hc, fun h => absurd h hle⟩
      intro fuel hf
      obtain ⟨f, rfl⟩ : ∃ f, fuel = f + 1 := ⟨fuel - 1, by omega⟩
      simp only [countLoop, if_neg hle]

theorem countLoop_spins : ∀ (fuel cnt : Nat),
    countLoop 2 loopFiber.data loopFiber.count fuel 2 cnt = none := by
  intro fuel
  induction fuel with
  | zero => intro cnt; rfl
  | succ f ih =>
    intro cnt
    exact ih (u32 (cnt + 1))

theorem popframe_empty {H : Nat} (vm : Gst) {t : GstThread} (h : t.count = 0) :
    readFrame H t.data t.count = none ∧ gst_thread_popframe H vm t = none := by
  have hno : ¬ frameOk H t.data t.count := by
    intro hok
    have h1 := hok.1
    have h2 := hok.2.1
    omega
  have hr : readFrame H t.data t.count = none := by simp only [readFrame, if_neg hno]
  exact ⟨hr, by simp only [gst_thread_popframe, hr, Option.bind_eq_bind, Option.none_bind]⟩


/-! ## Success-based facts for the chain invariant -/

theorem push_weak {H : Nat} {t t' : GstThread} {x : GstValue}
    (h : gst_thread_push H t x = some t') (hfit : t.used H < 4294967296) :
    frameOk H t'.data t'.count ∧ t'.count = t.count ∧ t'.status = t.status ∧
      t'.parent = t.parent ∧ t'.frame = { t.frame with size := u32 (t.frame.size + 1) } ∧
      (t.data.length = t.capacity → t'.data.length = t'.capacity) ∧
      (∀ i, i + 1 < t.count → t'.data[i]? = t.data[i]?) := by
  simp only [gst_thread_push, Option.bind_eq_bind, Option.bind_eq_some] at h
  obtain ⟨t1, h1, fr, hr, d2, hd2, d3, hw, h⟩ := h
  obtain ⟨hok, hok1, hc1, hs1, hp1, hsame1, hl1⟩ := ensure_extra_weak h1 hfit
  obtain ⟨-, hfr⟩ := readFrame_eq_some hr
  obtain ⟨hlt2, hset2⟩ := writeCell_eq_some hd2
  obtain ⟨hok2, hd3⟩ := writeFrame_eq_some hw
  have hpos : 0 < t1.count := lt_of_lt_of_le hok1.1 hok1.2.1
  have hfr1 : frameAt t1.data t1.count = t.frame := by
    rw [hc1]
    exact frameAt_congr (hsame1 _ (by omega))
  have hfr2 : frameAt d2 t1.count = t.frame := by
    rw [← hset2, frameAt_set_ne (by omega), hfr1]
  simp only [Option.some.injEq] at h
  subst h hd3
  refine ⟨⟨hok2.1, hok2.2.1, by simpa using hok2.2.2⟩, hc1, hs1, hp1, ?_, ?_, ?_⟩
  · show frameAt _ t1.count = _
    rw [frameAt_set_self (by have := hok2.2.2; omega), hfr2]
  · intro hl
    have := hl1 hl
    simp only [List.length_set]
    rw [← hset2]
    simpa using this
  · intro i hi
    simp only
    rw [List.getElem?_set_ne (by omega), ← hset2, List.getElem?_set_ne (by omega)]
    exact hsame1 i (by omega)

theorem beginframe_weak {H : Nat} {t t' : GstThread} {callee : GstValue} {arity : Nat}
    (h : gst_thread_beginframe H t callee arity = some t')
    (hfit : t.used H + H < 4294967296) :
    frameOk H t.data t.count ∧ frameOk H t'.data t'.count ∧
      t'.count = t.count + t.frame.size + H ∧ t'.status = t.status ∧ t'.parent = t.parent ∧
      t'.frame.prevsize = t.frame.size ∧ t'.frame.env = none ∧ t'.frame.callee = callee ∧
      t'.frame.size = u32 arity ∧
      (t.data.length = t.capacity → t'.data.length = t'.capacity) ∧
      (∀ i, i < t.count → t'.data[i]? = t.data[i]?) := by
  simp only [gst_thread_beginframe, Option.bind_eq_bind, Option.bind_eq_some] at h
  obtain ⟨t1, h1, fr, hr, d2, hw, h⟩ := h
  obtain ⟨hok, hok1, hc1, hs1, hp1, hsame1, hl1⟩ := ensure_extra_weak h1 (by omega)
  obtain ⟨-, hfr⟩ := readFrame_eq_some hr
  obtain ⟨hok2, hd2⟩ := writeFrame_eq_some hw
  have hH := hok.1
  have hpos : 0 < t1.count := lt_of_lt_of_le hok1.1 hok1.2.1
  have hfr1 : fr = t.frame := by
    rw [← hfr, hc1]
    exact frameAt_congr (hsame1 _ (by omega))
  subst hfr1
  simp only [GstThread.used] at hfit
  have hoff : u32 (t.frame.size + H) = t.frame.size + H := u32_of_lt (by omega)
  have hcnt : u32 (t1.count + (t.frame.size + H)) = t.count + t.frame.size + H := by
    rw [hc1, u32_of_lt (by omega)]; omega
  rw [hoff] at hw hd2 hok2 h
  rw [hcnt] at h
  have hns : t1.count + (t.frame.size + H) = t.count + t.frame.size + H := by rw [hc1]; omega
  rw [hns] at hok2 hd2
  have hfr2 : frameAt d2 (t.count + t.frame.size + H) =
      { frameAt t1.data (t.count + t.frame.size + H) with
        prevsize := t.frame.size, env := none, size := 0, callee := callee } := by
    rw [← hd2]
    exact frameAt_set_self (by have := hok2.2.2; omega) _
  have hfrT : GstThread.frame
      { data := d2, capacity := t1.capacity, count := t.count + t.frame.size + H,
        status := t1.status, parent := t1.parent } =
      { frameAt t1.data (t.count + t.frame.size + H) with
        prevsize := t.frame.size, env := none, size := 0, callee := callee } := hfr2
  obtain ⟨hok3, hc3, hs3, hp3, hfr3, hl3, hb3, -⟩ := pushnil_weak h (by
    simp only [GstThread.used]; rw [hfrT]; simp only; omega)
  have hlen2 : d2.length = t1.data.length := by rw [← hd2]; simp
  refine ⟨hok, hok3, hc3, hs3.trans hs1, hp3.trans hp1, ?_, ?_, ?_, ?_, ?_, ?_⟩
  · rw [hfr3, hfrT]
  · rw [hfr3, hfrT]
  · rw [hfr3, hfrT]
  · rw [hfr3, hfrT]; simp only [Nat.zero_add]
  · intro hl
    exact hl3 (by show d2.length = t1.capacity; rw [hlen2]; exact hl1 hl)
  · intro i hi
    rw [hb3 i (by show i + 1 < t.count + t.frame.size + H; omega), ← hd2,
      List.getElem?_set_ne (by omega)]
    exact hsame1 i hi

theorem popframe_weak {H : Nat} {vm vm' : Gst} {t t' : GstThread} {r : Option Nat}
    (h : gst_thread_popframe H vm t = some (vm', t', r)) (hfit : t.count < 4294967296) :
    frameOk H t.data t.count ∧ H + t.frame.prevsize ≤ t.count ∧
      t' = { t with count := t.count - (H + t.frame.prevsize) } ∧
      r = (if t.count - (H + t.frame.prevsize) ≠ 0 then
        some (t.count - (H + t.frame.prevsize)) else none) := by
  simp only [gst_thread_popframe, Option.bind_eq_bind, Option.bind_eq_some] at h
  obtain ⟨fr, hr, h⟩ := h
  obtain ⟨hok, hfr⟩ := readFrame_eq_some hr
  have hfr' : fr = t.frame := hfr.symm
  subst hfr'
  split at h
  · next hle =>
    have hu : u32 (H + t.frame.prevsize) = H + t.frame.prevsize := u32_of_lt (by omega)
    have hcnt : u32 (t.count + 4294967296 - u32 (H + t.frame.prevsize)) =
        t.count - (H + t.frame.prevsize) := by
      rw [hu]
      have : t.count + 4294967296 - (H + t.frame.prevsize) =
          (t.count - (H + t.frame.prevsize)) + 4294967296 := by omega
      rw [this]
      simp only [u32, Nat.add_mod_right]
      exact Nat.mod_eq_of_lt (by omega)
    rw [hcnt] at h
    have key : ∀ envs : List GstFuncEnv,
        (if t.count - (H + t.frame.prevsize) ≠ 0 then
          some (({ vm with envs := envs } : Gst),
            ({ t with count := t.count - (H + t.frame.prevsize) } : GstThread),
            some (t.count - H - t.frame.prevsize))
        else
          some (({ vm with envs := envs } : Gst),
            ({ t with count := t.count - (H + t.frame.prevsize) } : GstThread),
            none)) = some (vm', t', r) →
        t' = { t with count := t.count - (H + t.frame.prevsize) } ∧
          r = (if t.count - (H + t.frame.prevsize) ≠ 0 then
            some (t.count - (H + t.frame.prevsize)) else none) := by
      intro envs hh
      split at hh
      · next hne =>
        simp only [Option.some.injEq, Prod.mk.injEq] at hh
        rw [if_pos hne, ← hh.2.2, Nat.sub_sub]
        exact ⟨hh.2.1.symm, rfl⟩
      · next hne =>
        simp only [Option.some.injEq, Prod.mk.injEq] at hh
        rw [if_neg hne, ← hh.2.2]
        exact ⟨hh.2.1.symm, rfl⟩
    refine ⟨hok, hle, ?_⟩
    split at h
    · simp only [Option.bind_eq_some] at h
      obtain ⟨values, -, envs, -, h⟩ := h
      exact key envs h
    · exact key vm.envs h
  · exact absurd h (by simp)

/-! ## The chain invariant along the operations -/

theorem chain_keep {H : Nat} {t t' : GstThread}
    (hinv : t.count = 0 ∨ ∃ k, FrameChain H t.data t.count k)
    (hok : frameOk H t'.data t'.count) (hc : t'.count = t.count)
    (hp : t'.frame.prevsize = t.frame.prevsize) (he : t'.frame.env = t.frame.env)
    (hb : ∀ i, i + 1 < t.count → t'.data[i]? = t.data[i]?) :
    t'.count = 0 ∨ ∃ k, FrameChain H t'.data t'.count k := by
  rcases hinv with h0 | ⟨k, hch⟩
  · have h1 := hok.1
    have h2 := hok.2.1
    omega
  · refine Or.inr ⟨k, ?_⟩
    rw [hc]
    refine hch.congr hb (by rw [← hc]; exact hok) ?_ ?_
    · have := hp; simp only [GstThread.frame, hc] at this; exact this
    · have := he; simp only [GstThread.frame, hc] at this; exact this

theorem chain_beginframe {H : Nat} {t t' : GstThread} {callee : GstValue} {arity : Nat}
    (hinv : t.count = 0 ∨ ∃ k, FrameChain H t.data t.count k)
    (h : gst_thread_beginframe H t callee arity = some t')
    (hfit : t.used H + H < 4294967296) :
    t'.count = 0 ∨ ∃ k, FrameChain H t'.data t'.count k := by
  obtain ⟨hok, hok', hc, -, -, hp, he, -, -, -, hb⟩ := beginframe_weak h hfit
  rcases hinv with h0 | ⟨k, hch⟩
  · have h1 := hok.1
    have h2 := hok.2.1
    omega
  · refine Or.inr ⟨k + 1, ?_⟩
    have hH := hok.1
    have hcnt := hok.2.1
    have hfr : frameAt t'.data t.count = frameAt t.data t.count :=
      frameAt_congr (hb (t.count - 1) (by omega))
    have hch' : FrameChain H t'.data t.count k :=
      hch.congr (fun i hi => hb i (by omega))
        ⟨hok.1, hok.2.1, by have := hok'.2.2; rw [hc] at this; omega⟩
        (by rw [hfr]) (by rw [hfr])
    simp only [GstThread.frame] at hc hp he
    rw [hc] at hok' hp he ⊢
    rw [← hfr] at hok' hp he ⊢
    exact FrameChain.next hch' hok' hp he

theorem chain_popframe {H : Nat} {vm vm' : Gst} {t t' : GstThread} {r : Option Nat}
    (hinv : t.count = 0 ∨ ∃ k, FrameChain H t.data t.count k) (hne : t.count ≠ 0)
    (h : gst_thread_popframe H vm t = some (vm', t', r)) (hfit : t.used H < 4294967296) :
    t'.count = 0 ∨ ∃ k, FrameChain H t'.data t'.count k := by
  obtain ⟨hok, hle, ht', -⟩ := popframe_weak h (by
    simp only [GstThread.used] at hfit; omega)
  subst ht'
  rcases hinv with h0 | ⟨k, hch⟩
  · exact absurd h0 hne
  · obtain ⟨-, hroot | ⟨s0, k0, -, hs, hch0, hp⟩⟩ := hch.inv
    · left
      show t.count - (H + t.frame.prevsize) = 0
      omega
    · right
      refine ⟨k0, ?_⟩
      show FrameChain H t.data (t.count - (H + t.frame.prevsize)) k0
      have : t.count - (H + t.frame.prevsize) = s0 := by
        simp only [GstThread.frame]
        rw [hp]; omega
      rw [this]
      exact hch0

/-! ## `gst_thread`: the returned fiber -/

theorem gst_thread_root_ok {H : Nat} (callee : GstValue) (cap : Nat) (hH : 0 < H) :
    frameOk H (gst_thread_root H callee cap).data H ∧
      (gst_thread_root H callee cap).frame =
        { size := 0, prevsize := 0, ret := 0, args := 0, pc := none, env := none,
          callee := callee } := by
  have hlen : H ≤ (gst_alloc (if cap < H then H else cap)).length := by
    simp only [gst_alloc, List.length_replicate]
    split <;> omega
  refine ⟨⟨hH, le_refl _, by simpa [gst_thread_root] using hlen⟩, ?_⟩
  exact frameAt_set_self (by omega) _

theorem gst_thread_unfold {H : Nat} {vm : Gst} {callee : GstValue} {cap : Nat} {t : GstThread}
    (h : gst_thread H vm callee cap = some t) :
    0 < H ∧ ∃ t1, gst_thread_endframe H (gst_thread_root H callee cap) = some t1 ∧
      t = { t1 with parent := vm.thread } := by
  simp only [gst_thread, Option.bind_eq_bind, Option.bind_eq_some, Option.some.injEq] at h
  obtain ⟨d0, hw0, t1, h1, h⟩ := h
  obtain ⟨hok0, hd0⟩ := writeFrame_eq_some hw0
  subst hd0
  exact ⟨hok0.1, t1, h1, h.symm⟩

theorem gst_thread_cap {H : Nat} {vm : Gst} {callee : GstValue} {cap : Nat} {t : GstThread}
    (h : gst_thread H vm callee cap = some t)
    (hfit : 2 * (2 * H + endframeRoom callee) < 4294967296) :
    cap ≤ t.capacity ∧ H ≤ t.capacity := by
  obtain ⟨hH, t1, h1, ht⟩ := gst_thread_unfold h
  obtain ⟨-, hfr⟩ := gst_thread_root_ok callee cap hH
  have hu : (gst_thread_root H callee cap).used H = 2 * H := by
    simp only [GstThread.used, hfr]
    show H + 0 + H = 2 * H
    omega
  obtain ⟨-, -, -, -, -, -, -, hcap⟩ := endframe_weak h1 (by rw [hu]; omega)
  have hle := hcap (by rw [hu, hfr]; exact hfit)
  subst ht
  have hc0 : (gst_thread_root H callee cap).capacity = if cap < H then H else cap := rfl
  rw [hc0] at hle
  show cap ≤ t1.capacity ∧ H ≤ t1.capacity
  split at hle <;> omega

theorem gst_thread_other {H : Nat} (vm : Gst) {callee : GstValue} (cap : Nat) (hH : 0 < H)
    (hcallee : ∀ fn, callee ≠ GstValue.function fn) :
    gst_thread H vm callee cap =
      some { gst_thread_root H callee cap with parent := vm.thread } := by
  obtain ⟨hok, hfr⟩ := gst_thread_root_ok callee cap hH
  have hend : gst_thread_endframe H (gst_thread_root H callee cap) =
      some (gst_thread_root H callee cap) :=
    endframe_other_spec hok (by rw [hfr]; exact hcallee)
  have hok0 : frameOk H (gst_alloc (if cap < H then H else cap)) H :=
    ⟨hH, le_refl _, by simp only [gst_alloc, List.length_replicate]; split <;> omega⟩
  simp only [gst_thread, writeFrame_of_ok hok0, Option.bind_eq_bind, Option.some_bind]
  have := hend
  simp only [gst_thread_root] at this
  rw [this]
  rfl
/-! ## The claims -/

/-- C1 (the code departs from the claim): `gst_thread_tuplepack` with `n ≤ size`
puts the tuple of the former slots `n..size-1` at slot `n` but leaves the frame
size as it was instead of setting it to `n + 1`. A fiber made by `gst_thread`
calls a variadic function of declared arity 2 (`gst_thread_beginframe`), four
arguments `[a, b, c, d]` are pushed, and the frame is packed at 2
(`gst_thread_tuplepack`) or finalised (`gst_thread_endframe`): the frame size
stays 4 (not 3), slots 0 and 1 hold `a` and `b`, slot 2 is the tuple `[c, d]`
and slot 3 still holds `d`. -/
theorem tuplepack_over_supplied_keeps_size :
    ∃ t0 t1 t2, gst_thread 2 capturingVm valA 10 = some t0 ∧
      gst_thread_beginframe 2 t0 variadic2 0 = some t1 ∧
      pushAll 2 t1 [valA, valB, valC, valD] = some t2 ∧ t2.frame.size = 4 ∧
      (∃ t', gst_thread_tuplepack 2 t2 2 = some t' ∧
        t'.frame.size = 4 ∧ t'.slot 0 = some (Cell.value valA) ∧
        t'.slot 1 = some (Cell.value valB) ∧
        t'.slot 2 = some (Cell.value (GstValue.tuple [valC, valD])) ∧
        t'.slot 3 = some (Cell.value valD)) ∧
      (∃ t', gst_thread_endframe 2 t2 = some t' ∧
        t'.frame.size = 4 ∧ t'.slot 0 = some (Cell.value valA) ∧
        t'.slot 1 = some (Cell.value valB) ∧
        t'.slot 2 = some (Cell.value (GstValue.tuple [valC, valD])) ∧
        t'.slot 3 = some (Cell.value valD)) :=
  ⟨_, _, _, rfl, rfl, rfl, rfl, ⟨_, rfl, rfl, rfl, rfl, rfl, rfl⟩,
    ⟨_, rfl, rfl, rfl, rfl, rfl, rfl⟩⟩

/-- C2: for a valid fiber and `n > size` (with the grown frame within the
32-bit range), `gst_thread_tuplepack` succeeds, the frame size becomes exactly
`n + 1`, the former slots `0..size-1` are unchanged, the slots `size..n-1` are
`Nil` and slot `n` is the empty tuple. -/
theorem tuplepack_under_supplied (H : Nat) (t : GstThread) (n : Nat) (hv : Valid H t)
    (hn : t.frame.size < n) (hfit : 2 * (t.count + n + 1 + H) < 4294967296) :
    ∃ t', gst_thread_tuplepack H t n = some t' ∧ t'.count = t.count ∧
      t'.frame.size = n + 1 ∧
      (∀ i, i < t.frame.size → t'.slot i = t.slot i) ∧
      (∀ i, t.frame.size ≤ i → i < n → t'.slot i = some (Cell.value GstValue.nil)) ∧
      t'.slot n = some (Cell.value (GstValue.tuple [])) := by
  obtain ⟨t', h, hstep, hfr, hsame, hnil, htup⟩ := tuplepack_under_spec hv hn hfit
  have hpos : 0 < t.count := lt_of_lt_of_le hv.1.1 hv.1.2.1
  refine ⟨t', h, hstep.count, by rw [hfr], ?_, hnil, htup⟩
  intro i hi
  simp only [GstThread.slot, hstep.count]
  exact hsame _ (by omega) (by omega)

/-- C2 witness: a frame of a variadic function of declared arity 2 holding
`[a]`; packing at 2, and finalising the frame, give size 3 with slot 0 = `a`,
slot 1 = `Nil` and slot 2 = the empty tuple. -/
theorem tuplepack_under_supplied_witness :
    (Valid 2 (fiberOf variadic2 [valA] 2) ∧ (fiberOf variadic2 [valA] 2).frame.size < 2 ∧
      2 * ((fiberOf variadic2 [valA] 2).count + 2 + 1 + 2) < 4294967296 ∧
      ∃ t', gst_thread_tuplepack 2 (fiberOf variadic2 [valA] 2) 2 = some t' ∧
        t'.count = (fiberOf variadic2 [valA] 2).count ∧ t'.frame.size = 2 + 1 ∧
        (∀ i, i < (fiberOf variadic2 [valA] 2).frame.size →
          t'.slot i = (fiberOf variadic2 [valA] 2).slot i) ∧
        (∀ i, (fiberOf variadic2 [valA] 2).frame.size ≤ i → i < 2 →
          t'.slot i = some (Cell.value GstValue.nil)) ∧
        t'.slot 2 = some (Cell.value (GstValue.tuple []))) ∧
    (∃ t', gst_thread_endframe 2 (fiberOf variadic2 [valA] 2) = some t' ∧
      t'.frame.size = 3 ∧ t'.slot 0 = some (Cell.value valA) ∧
      t'.slot 1 = some (Cell.value GstValue.nil) ∧
      t'.slot 2 = some (Cell.value (GstValue.tuple []))) :=
  ⟨⟨by decide, by decide, by decide,
    tuplepack_under_supplied 2 (fiberOf variadic2 [valA] 2) 2 (by decide) (by decide)
      (by decide)⟩,
   ⟨_, rfl, rfl, rfl, rfl, rfl⟩⟩

/-- C3: for a valid fiber whose current frame runs a non-variadic function
declaring `L` local slots and holds `s` slots (with the padded frame within the
32-bit range), `gst_thread_endframe` succeeds, the frame size becomes
`max s L`, the former slots `0..s-1` are unchanged and every slot `s..L-1` is
`Nil`. -/
theorem endframe_pads_locals (H : Nat) (t : GstThread) (fn : GstFunction) (hv : Valid H t)
    (hcallee : t.frame.callee = GstValue.function fn)
    (hflag : fn.fdef.flags &&& GST_FUNCDEF_FLAG_VARARG = 0)
    (hfit : 2 * (t.used H + fn.fdef.locals) < 4294967296) :
    ∃ t', gst_thread_endframe H t = some t' ∧ t'.count = t.count ∧
      t'.frame.size = max t.frame.size fn.fdef.locals ∧
      (∀ i, i < t.frame.size → t'.slot i = t.slot i) ∧
      (∀ i, t.frame.size ≤ i → i < fn.fdef.locals →
        t'.slot i = some (Cell.value GstValue.nil)) := by
  obtain ⟨t', h, hstep, hfr, hsame, hnil⟩ := endframe_fixed_spec hv hcallee hflag hfit
  have hpos : 0 < t.count := lt_of_lt_of_le hv.1.1 hv.1.2.1
  refine ⟨t', h, hstep.count, by rw [hfr], ?_, hnil⟩
  intro i hi
  simp only [GstThread.slot, hstep.count]
  exact hsame _ (by omega) (by omega)

/-- C3 witness: a function with `locals = 5` and 2 bound arguments gives a
frame of size 5 whose slots 2, 3 and 4 are `Nil`. -/
theorem endframe_pads_locals_witness :
    Valid 2 (fiberOf fixed5 [valA, valB] 2) ∧
    (∃ t', gst_thread_endframe 2 (fiberOf fixed5 [valA, valB] 2) = some t' ∧
      t'.count = (fiberOf fixed5 [valA, valB] 2).count ∧
      t'.frame.size = max (fiberOf fixed5 [valA, valB] 2).frame.size 5 ∧
      (∀ i, i < (fiberOf fixed5 [valA, valB] 2).frame.size →
        t'.slot i = (fiberOf fixed5 [valA, valB] 2).slot i) ∧
      (∀ i, (fiberOf fixed5 [valA, valB] 2).frame.size ≤ i → i < 5 →
        t'.slot i = some (Cell.value GstValue.nil))) ∧
    (∃ t', gst_thread_endframe 2 (fiberOf fixed5 [valA, valB] 2) = some t' ∧
      t'.frame.size = 5 ∧ t'.slot 0 = some (Cell.value valA) ∧
      t'.slot 1 = some (Cell.value valB) ∧ t'.slot 2 = some (Cell.value GstValue.nil) ∧
      t'.slot 3 = some (Cell.value GstValue.nil) ∧
      t'.slot 4 = some (Cell.value GstValue.nil)) :=
  ⟨by decide,
   endframe_pads_locals 2 (fiberOf fixed5 [valA, valB] 2) ⟨_⟩ (by decide) rfl rfl (by decide),
   ⟨_, rfl, rfl, rfl, rfl, rfl, rfl, rfl⟩⟩

/-- C4 counterexample: finalising the frame of `fixed5` over two arguments
leaves `size = 5` and `args = 7 = size + GST_FRAME_SIZE`, so `args` is not the
frame size itself. -/
theorem endframe_args_offset_counterexample :
    ∃ t', gst_thread_endframe 2 (fiberOf fixed5 [valA, valB] 2) = some t' ∧
      t'.frame.size = 5 ∧ t'.frame.args = 7 ∧ t'.frame.args ≠ t'.frame.size :=
  ⟨_, rfl, rfl, rfl, by decide⟩

/-- C4 (amended): for a valid fiber whose current frame runs a function (with
the finalised frame within the 32-bit range), `gst_thread_endframe` succeeds,
the header's `args` equals the frame size after padding or packing plus
`GST_FRAME_SIZE`, and the header's `pc` is the function definition's
bytecode. -/
theorem endframe_args_and_pc (H : Nat) (t : GstThread) (fn : GstFunction) (hv : Valid H t)
    (hcallee : t.frame.callee = GstValue.function fn)
    (hfit : 2 * (t.used H + fn.fdef.locals + fn.fdef.arity + 1) < 4294967296) :
    ∃ t', gst_thread_endframe H t = some t' ∧
      t'.frame.args = t'.frame.size + H ∧ t'.frame.pc = some fn.fdef.byteCode := by
  by_cases hflag : fn.fdef.flags &&& GST_FUNCDEF_FLAG_VARARG = 0
  · obtain ⟨t', h, -, hfr, -⟩ := endframe_fixed_spec hv hcallee hflag (by omega)
    exact ⟨t', h, by rw [hfr], by rw [hfr]⟩
  · obtain ⟨t', h, -, hfr⟩ := endframe_vararg_spec hv hcallee hflag (by omega)
    exact ⟨t', h, by rw [hfr], by rw [hfr]⟩

/-- C4 witness: the frame of `fixed5` over two arguments, and `variadic2` over
four. -/
theorem endframe_args_and_pc_witness :
    Valid 2 (fiberOf variadic2 [valA, valB, valC, valD] 2) ∧
    ∃ t', gst_thread_endframe 2 (fiberOf variadic2 [valA, valB, valC, valD] 2) = some t' ∧
      t'.frame.args = t'.frame.size + 2 ∧ t'.frame.pc = some 77 :=
  ⟨by decide,
   endframe_args_and_pc 2 (fiberOf variadic2 [valA, valB, valC, valD] 2) ⟨_⟩ (by decide) rfl
     (by decide)⟩

/-- C5: push/pop symmetry. For a valid fiber (with the new frame within the
32-bit range), `gst_thread_beginframe`, any number of pushes,
`gst_thread_endframe` and then `gst_thread_popframe` all succeed; afterwards
`count` has its value from before `gst_thread_beginframe`, and the caller
frame's size and local slots are as they were. -/
theorem push_pop_symmetry (H : Nat) (vm : Gst) (t : GstThread) (callee : GstValue)
    (arity : Nat) (xs : List GstValue) (hv : Valid H t)
    (hfit : 2 * (t.used H + 2 * H + arity + xs.length + endframeRoom callee + 4) < 4294967296) :
    ∃ t1 t2 t3 vm' t4 r, gst_thread_beginframe H t callee arity = some t1 ∧
      pushAll H t1 xs = some t2 ∧ gst_thread_endframe H t2 = some t3 ∧
      gst_thread_popframe H vm t3 = some (vm', t4, r) ∧
      t4.count = t.count ∧ t4.frame.size = t.frame.size ∧
      ∀ i, i < t.frame.size → t4.slot i = t.slot i := by
  have hH := hv.1.1
  have hcnt := hv.1.2.1
  obtain ⟨t1, h1, hv1, hc1, -, -, -, hprev1, henv1, hcallee1, hsz1, -, hsame1⟩ :=
    beginframe_spec callee arity hv (by omega)
  have hused1 : t1.used H = t.used H + H + arity := by
    simp only [GstThread.used, hc1, hsz1]; omega
  obtain ⟨t2, h2, hstep2, hfr2⟩ := pushAll_spec xs t1 hv1 (by omega)
  have hused2 : t2.used H = t.used H + H + arity + xs.length := by
    simp only [GstThread.used, hfr2, hstep2.count, hc1, hsz1]; omega
  have hcallee2 : t2.frame.callee = callee := by rw [hfr2]; exact hcallee1
  obtain ⟨t3, h3, hstep3, hprev3, henv3, -, -, -, -⟩ :=
    endframe_spec hstep2.valid (by rw [hcallee2]; omega)
  have hc3 : t3.count = t.count + t.frame.size + H := by
    rw [hstep3.count, hstep2.count, hc1]
  have hp3 : t3.frame.prevsize = t.frame.size := by rw [hprev3, hfr2]; exact hprev1
  have he3 : t3.frame.env = none := by rw [henv3, hfr2]; exact henv1
  have hpop := popframe_spec vm hstep3.valid.1 (by rw [hp3, hc3]; omega)
    (by simp only [GstThread.used] at hfit; omega)
    (fun e he => by rw [he3] at he; exact absurd he (by simp))
  have hcells : ∀ i, i < t.count + t.frame.size → t3.data[i]? = t.data[i]? := by
    intro i hi
    rw [hstep3.below i (by rw [hstep2.count, hc1]; omega),
      hstep2.below i (by rw [hc1]; omega), hsame1 i hi]
  have hfr4 : frameAt t3.data t.count = frameAt t.data t.count :=
    frameAt_congr (hcells _ (by omega))
  refine ⟨t1, t2, t3, _, _, _, h1, h2, h3, hpop, ?_, ?_, ?_⟩
  · simp only [hp3, hc3]; omega
  · have hcount : t3.count - (H + t3.frame.prevsize) = t.count := by rw [hp3, hc3]; omega
    show (frameAt t3.data (t3.count - (H + t3.frame.prevsize))).size = (frameAt t.data t.count).size
    rw [hcount, hfr4]
  · intro i hi
    have hcount : t3.count - (H + t3.frame.prevsize) = t.count := by rw [hp3, hc3]; omega
    show t3.data[t3.count - (H + t3.frame.prevsize) + i]? = t.data[t.count + i]?
    rw [hcount]
    exact hcells _ (by omega)

/-- C5 witness: a call of `fixed5` with arity 1 and pushes `[a, b]` on top of
a frame holding `[c, d]`. -/
theorem push_pop_symmetry_witness :
    Valid 2 (fiberOf valA [valC, valD] 2) ∧
    ∃ t1 t2 t3 vm' t4 r,
      gst_thread_beginframe 2 (fiberOf valA [valC, valD] 2) fixed5 1 = some t1 ∧
      pushAll 2 t1 [valA, valB] = some t2 ∧ gst_thread_endframe 2 t2 = some t3 ∧
      gst_thread_popframe 2 ⟨none, []⟩ t3 = some (vm', t4, r) ∧
      t4.count = (fiberOf valA [valC, valD] 2).count ∧
      t4.frame.size = (fiberOf valA [valC, valD] 2).frame.size ∧
      ∀ i, i < (fiberOf valA [valC, valD] 2).frame.size →
        t4.slot i = (fiberOf valA [valC, valD] 2).slot i :=
  ⟨by decide,
   push_pop_symmetry 2 ⟨none, []⟩ (fiberOf valA [valC, valD] 2) fixed5 1 [valA, valB]
     (by decide) (by decide)⟩

/-- C10: for a valid fiber and `used = count + size + GST_FRAME_SIZE` (with
`2 * (used + extra)` within the 32-bit range): if `capacity ≥ used + extra`,
`gst_thread_ensure_extra` returns the fiber unchanged; otherwise it succeeds,
the capacity (and the size of the new storage) is exactly `2 * (used + extra)`,
the first `used` elements of the new storage are the first `used` elements of
the old one, and `count` is unchanged. -/
theorem ensure_extra_contract (H : Nat) (t : GstThread) (extra : Nat) (hv : Valid H t)
    (hfit : 2 * (t.used H + extra) < 4294967296) :
    (t.used H + extra ≤ t.capacity → gst_thread_ensure_extra H t extra = some t) ∧
    (t.capacity < t.used H + extra →
      ∃ t', gst_thread_ensure_extra H t extra = some t' ∧
        t'.capacity = 2 * (t.used H + extra) ∧ t'.data.length = 2 * (t.used H + extra) ∧
        t'.data.take (t.used H) = t.data.take (t.used H) ∧ t'.count = t.count ∧
        t'.status = t.status ∧ t'.parent = t.parent) := by
  obtain ⟨hok, hlen, hcap⟩ := hv
  refine ⟨fun h => ensure_extra_noop hok (by omega) h, fun h => ?_⟩
  refine ⟨_, ensure_extra_grow hok (by omega) hfit h, rfl, ?_, ?_, rfl, rfl, rfl⟩
  · simp only [List.length_append, List.length_take, List.length_replicate]
    rw [Nat.min_eq_left (by omega)]
    omega
  · simp only
    rw [List.take_append_of_le_length (by simp; omega), List.take_take]
    simp

/-- C10 witness: a fiber with `used = capacity = 6`, asked for 1 more cell
(grows to 14) and for none (unchanged). -/
theorem ensure_extra_contract_witness :
    Valid 2 (fiberOf valA [valC, valD] 2) ∧
    ((fiberOf valA [valC, valD] 2).capacity < (fiberOf valA [valC, valD] 2).used 2 + 1 ∧
      ∃ t', gst_thread_ensure_extra 2 (fiberOf valA [valC, valD] 2) 1 = some t' ∧
        t'.capacity = 14 ∧ t'.data.length = 14 ∧
        t'.data.take 6 = (fiberOf valA [valC, valD] 2).data.take 6 ∧
        t'.count = 2) ∧
    gst_thread_ensure_extra 2 (fiberOf valA [valC, valD] 2) 0 =
      some (fiberOf valA [valC, valD] 2) :=
  ⟨by decide,
   ⟨by decide,
    let ⟨t', h, h1, h2, h3, h4, _⟩ :=
      (ensure_extra_contract 2 (fiberOf valA [valC, valD] 2) 1 (by decide) (by decide)).2
        (by decide)
    ⟨t', h, h1, h2, h3, h4⟩⟩,
   (ensure_extra_contract 2 (fiberOf valA [valC, valD] 2) 0 (by decide) (by decide)).1
     (by decide)⟩

/-- C9 counterexample: pushing `b` on a frame holding `[c, d]` (`count = 2`,
`used = 6`) changes the storage element at index 4, which lies below `used`,
from fresh memory to `b`, and changes the header cell at index 1 (the size
field goes from 2 to 3). -/
theorem growth_below_used_counterexample :
    ∃ t', gst_thread_push 2 (fiberOf valA [valC, valD] 2) valB = some t' ∧
      4 < (fiberOf valA [valC, valD] 2).used 2 ∧
      (fiberOf valA [valC, valD] 2).data[4]? = some Cell.uninit ∧
      t'.data[4]? = some (Cell.value valB) ∧ t'.data[4]? ≠ (fiberOf valA [valC, valD] 2).data[4]? ∧
      (frameAt (fiberOf valA [valC, valD] 2).data 2).size = 2 ∧ (frameAt t'.data 2).size = 3 :=
  ⟨_, rfl, by decide, rfl, rfl, fun h => Option.noConfusion h (fun h' => Cell.noConfusion h'),
    rfl, rfl⟩

/-- C9 (amended): growth preserves content. For a valid fiber (with the grown
storage within the 32-bit range): `gst_thread_ensure_extra` succeeds and leaves
`count` and every storage element below `used = count + size +
GST_FRAME_SIZE` unchanged; `gst_thread_push` and `gst_thread_pushnil` succeed
and leave `count` and every storage element below `count + size` unchanged
except the cell of the current header, of which only the size field changes
(to `size + 1`, `size + n`); `gst_thread_beginframe` succeeds and leaves every
storage element below `count + size` unchanged. -/
theorem growth_preserves_content (H : Nat) (t : GstThread) (extra : Nat) (x : GstValue)
    (n : Nat) (callee : GstValue) (arity : Nat) (hv : Valid H t)
    (hfit : 2 * (t.used H + H + extra + n + arity + 4) < 4294967296) :
    (∃ t', gst_thread_ensure_extra H t extra = some t' ∧ t'.count = t.count ∧
      ∀ i, i < t.used H → t'.data[i]? = t.data[i]?) ∧
    (∃ t', gst_thread_push H t x = some t' ∧ t'.count = t.count ∧
      t'.frame = { t.frame with size := t.frame.size + 1 } ∧
      ∀ i, i < t.count + t.frame.size → i ≠ t.count - 1 → t'.data[i]? = t.data[i]?) ∧
    (∃ t', gst_thread_pushnil H t n = some t' ∧ t'.count = t.count ∧
      t'.frame = { t.frame with size := t.frame.size + n } ∧
      ∀ i, i < t.count + t.frame.size → i ≠ t.count - 1 → t'.data[i]? = t.data[i]?) ∧
    (∃ t', gst_thread_beginframe H t callee arity = some t' ∧
      ∀ i, i < t.count + t.frame.size → t'.data[i]? = t.data[i]?) := by
  refine ⟨?_, ?_, ?_, ?_⟩
  · obtain ⟨t', h, hc, -, -, -, -, -, hsame⟩ := ensure_extra_spec extra hv (by omega)
    exact ⟨t', h, hc, hsame⟩
  · obtain ⟨t', h, hstep, hfr, hsame, -⟩ := push_spec x hv (by omega)
    exact ⟨t', h, hstep.count, hfr, hsame⟩
  · obtain ⟨t', h, hstep, hfr, hsame, -⟩ := pushnil_spec (n := n) hv (by omega)
    exact ⟨t', h, hstep.count, hfr, hsame⟩
  · obtain ⟨t', h, -, -, -, -, -, -, -, -, -, -, hsame⟩ :=
      beginframe_spec callee arity hv (by omega)
    exact ⟨t', h, hsame⟩

/-- C9 witness: a frame holding `[c, d]` with `used = capacity`, so that every
routine reallocates. -/
theorem growth_preserves_content_witness :
    Valid 2 (fiberOf valA [valC, valD] 2) ∧
    (∃ t', gst_thread_ensure_extra 2 (fiberOf valA [valC, valD] 2) 3 = some t' ∧
      t'.count = (fiberOf valA [valC, valD] 2).count ∧
      ∀ i, i < (fiberOf valA [valC, valD] 2).used 2 →
        t'.data[i]? = (fiberOf valA [valC, valD] 2).data[i]?) ∧
    (∃ t', gst_thread_beginframe 2 (fiberOf valA [valC, valD] 2) fixed5 1 = some t' ∧
      ∀ i, i < (fiberOf valA [valC, valD] 2).count + (fiberOf valA [valC, valD] 2).frame.size →
        t'.data[i]? = (fiberOf valA [valC, valD] 2).data[i]?) :=
  ⟨by decide,
   (growth_preserves_content 2 (fiberOf valA [valC, valD] 2) 3 valB 2 fixed5 1 (by decide)
     (by decide)).1,
   (growth_preserves_content 2 (fiberOf valA [valC, valD] 2) 3 valB 2 fixed5 1 (by decide)
     (by decide)).2.2.2⟩

/-- C7: closure detachment. For a fiber whose current frame (readable, inside
the storage, with its caller frame at `count - GST_FRAME_SIZE - prevsize`) may
hold a closure environment that the VM knows, `gst_thread_popframe` succeeds.
If the header holds the environment `e` and the frame has size `s`,
afterwards `e` has its back-reference cleared, `stackOffset = s` and `values` a
sequence of length `s` equal slot for slot to the frame's locals at pop time,
no other environment is modified, and after any later sequence of pushes,
`pushnil`, `beginframe` and `endframe` on the fiber the environment is still
the same. If the header holds no environment, no environment is modified. -/
theorem closure_detachment (H : Nat) (vm : Gst) (t : GstThread)
    (hok : frameOk H t.data t.count) (hprev : H + t.frame.prevsize ≤ t.count)
    (hcount : t.count < 4294967296) (hsize : t.count + t.frame.size ≤ t.data.length)
    (henv : ∀ e, t.frame.env = some e → e < vm.envs.length) :
    ∃ vm' t' r, gst_thread_popframe H vm t = some (vm', t', r) ∧
      (∀ e, t.frame.env = some e →
        ∃ vals, vm'.envs[e]? =
            some { thread := none, stackOffset := t.frame.size, values := some vals } ∧
          vals.length = t.frame.size ∧
          (∀ i, i < t.frame.size → vals[i]? = t.slot i) ∧
          (∀ e', e' ≠ e → vm'.envs[e']? = vm.envs[e']?) ∧
          ∀ ops vm'' t'', runOps H vm' t' ops = some (vm'', t'') →
            vm''.envs[e]? =
              some { thread := none, stackOffset := t.frame.size, values := some vals }) ∧
      (t.frame.env = none → vm' = vm) := by
  have hpop := popframe_spec vm hok hprev hcount (fun e he => ⟨henv e he, hsize⟩)
  refine ⟨_, _, _, hpop, ?_, ?_⟩
  · intro e he
    have hlt := henv e he
    refine ⟨(t.data.drop t.count).take t.frame.size, ?_, ?_, ?_, ?_, ?_⟩
    · simp only [he]
      rw [List.getElem?_set_self hlt]
    · simp only [List.length_take, List.length_drop]
      omega
    · intro i hi
      rw [List.getElem?_take_of_lt hi, List.getElem?_drop]
      rfl
    · intro e' hne
      simp only [he]
      rw [List.getElem?_set_ne (Ne.symm hne)]
    · intro ops vm'' t'' hrun
      rw [runOps_vm ops _ _ _ _ hrun]
      simp only [he]
      rw [List.getElem?_set_self hlt]
  · intro he
    simp only [he]

/-- C7 witness: a frame holding `[a, b, c]` captured by environment 0; after
the pop the environment holds `[a, b, c]`, also after the stack region has
been reused by a new frame with pushes. -/
theorem closure_detachment_witness :
    frameOk 2 (capturedFiber 0 [valA, valB, valC] 2).data (capturedFiber 0 [valA, valB, valC] 2).count ∧
    (capturedFiber 0 [valA, valB, valC] 2).frame.env = some 0 ∧
    (∃ vm' t' r,
      gst_thread_popframe 2 capturingVm (capturedFiber 0 [valA, valB, valC] 2) =
        some (vm', t', r) ∧
      (∀ e, (capturedFiber 0 [valA, valB, valC] 2).frame.env = some e →
        ∃ vals, vm'.envs[e]? =
            some { thread := none
                   stackOffset := (capturedFiber 0 [valA, valB, valC] 2).frame.size
                   values := some vals } ∧
          vals.length = (capturedFiber 0 [valA, valB, valC] 2).frame.size ∧
          (∀ i, i < (capturedFiber 0 [valA, valB, valC] 2).frame.size →
            vals[i]? = (capturedFiber 0 [valA, valB, valC] 2).slot i) ∧
          (∀ e', e' ≠ e → vm'.envs[e']? = capturingVm.envs[e']?) ∧
          ∀ ops vm'' t'', runOps 2 vm' t' ops = some (vm'', t'') →
            vm''.envs[e]? =
              some { thread := none
                     stackOffset := (capturedFiber 0 [valA, valB, valC] 2).frame.size
                     values := some vals }) ∧
      ((capturedFiber 0 [valA, valB, valC] 2).frame.env = none → vm' = capturingVm)) ∧
    (∃ vm' t' r,
      gst_thread_popframe 2 capturingVm (capturedFiber 0 [valA, valB, valC] 2) =
        some (vm', t', r) ∧
      vm'.envs[0]? = some
        { thread := none
          stackOffset := 3
          values := some [Cell.value valA, Cell.value valB, Cell.value valC] }) :=
  ⟨by decide, rfl,
   closure_detachment 2 capturingVm (capturedFiber 0 [valA, valB, valC] 2) (by decide)
     (by decide) (by decide) (by decide) (fun e he => by
       have h0 : e = 0 := (Option.some.inj he).symm
       rw [h0]; decide),
   ⟨_, _, _, rfl, rfl⟩⟩

/-- C8: for a fiber with at least one frame (the current header readable, the
caller frame at `count - GST_FRAME_SIZE - prevsize` inside the storage, a
closure environment, if any, known to the VM and its slots inside the
storage), `gst_thread_popframe` succeeds, rewinds `count` by exactly
`GST_FRAME_SIZE + prevsize`, leaves the storage alone, returns `NULL` exactly
when the resulting `count` is 0 and otherwise the frame at the new `count`. In
particular, popping the root frame of any fiber made by `gst_thread` returns
`NULL` and leaves `count = 0`. -/
theorem popframe_rewinds (H : Nat) (vm : Gst) (t : GstThread)
    (hok : frameOk H t.data t.count) (hprev : H + t.frame.prevsize ≤ t.count)
    (hcount : t.count < 4294967296)
    (henv : ∀ e, t.frame.env = some e →
      e < vm.envs.length ∧ t.count + t.frame.size ≤ t.data.length) :
    (∃ vm' t' r, gst_thread_popframe H vm t = some (vm', t', r) ∧
      t'.count + (H + t.frame.prevsize) = t.count ∧ t'.data = t.data ∧
      (r = none ↔ t'.count = 0) ∧ (t'.count ≠ 0 → r = some t'.count)) ∧
    (2 * H < 4294967296 → ∀ (vm0 : Gst) (callee : GstValue) (cap : Nat) (t0 : GstThread),
      gst_thread H vm0 callee cap = some t0 →
      t0.count = H ∧ t0.frame.prevsize = 0 ∧
      ∃ vm' t', gst_thread_popframe H vm t0 = some (vm', t', none) ∧ t'.count = 0) := by
  refine ⟨?_, ?_⟩
  · refine ⟨_, _, _, popframe_spec vm hok hprev hcount henv, ?_, rfl, ?_, ?_⟩
    · simp only; omega
    · simp only
      split <;> simp_all
    · intro hne
      simp only at hne ⊢
      rw [if_pos hne]
  · intro hH vm0 callee cap t0 h0
    obtain ⟨hok0, hc0, -, -, -, s, pc, args, hfr0, -⟩ := gst_thread_weak h0 hH
    have hp0 : t0.frame.prevsize = 0 := by rw [hfr0]
    have he0 : t0.frame.env = none := by rw [hfr0]
    have hpop := popframe_spec vm hok0 (by rw [hp0, hc0]; omega) (by omega)
      (fun e he => by rw [he0] at he; exact absurd he (by simp))
    have hz : t0.count - (H + t0.frame.prevsize) = 0 := by rw [hp0, hc0]; omega
    rw [hz] at hpop
    exact ⟨hc0, hp0, _, _, hpop, rfl⟩

/-- C8 witness: popping the second frame of a fiber returns the caller frame
at offset 2; popping the root frame of a fiber made by `gst_thread` returns
`NULL` with `count = 0`. -/
theorem popframe_rewinds_witness :
    gst_thread_beginframe 2 (fiberOf valA [valC, valD] 2) fixed5 1 = some calledFiber ∧
    frameOk 2 calledFiber.data calledFiber.count ∧
    2 + calledFiber.frame.prevsize ≤ calledFiber.count ∧
    (∃ vm' t' r, gst_thread_popframe 2 capturingVm calledFiber = some (vm', t', r) ∧
      t'.count + (2 + calledFiber.frame.prevsize) = calledFiber.count ∧
      t'.data = calledFiber.data ∧
      (r = none ↔ t'.count = 0) ∧ (t'.count ≠ 0 → r = some t'.count)) ∧
    (∃ vm' t', gst_thread_popframe 2 capturingVm calledFiber = some (vm', t', some 2)) ∧
    (∃ t0, gst_thread 2 capturingVm variadic2 10 = some t0 ∧
      ∃ vm' t', gst_thread_popframe 2 capturingVm t0 = some (vm', t', none) ∧ t'.count = 0) :=
  ⟨rfl, by decide, by decide,
   (popframe_rewinds 2 capturingVm calledFiber (by decide) (by decide) (by decide)
      (fun e (he : (none : Option Nat) = some e) => Option.noConfusion he)).1,
   ⟨_, _, rfl⟩,
   ⟨_, rfl, _, _, rfl, rfl⟩⟩

/-- C6: frame count consistency. Take a fiber freshly created by `gst_thread`
and `K` nested calls on it, each a `gst_thread_beginframe` followed by pushes
and optionally `gst_thread_endframe`, with no pops and the whole stack within
the 32-bit range. Whenever the creation and the calls return,
`gst_thread_countframes` returns `K + 1` (given enough fuel for its loop), and
after `j ≤ K + 1` calls of `gst_thread_popframe`, which all succeed, it returns
`K + 1 - j`: each pop lowers the count by exactly 1, down to 0 once the root
frame is popped. The creation and the calls do return when the initial
capacity is at least two headers. -/
theorem frame_count_consistency (H : Nat) (vm : Gst) (callee : GstValue) (cap : Nat)
    (levels : List Level)
    (hfit : 2 * (2 * H + endframeRoom callee + (levels.map (Level.room H)).sum) < 4294967296) :
    (∀ t0 t, gst_thread H vm callee cap = some t0 → runLevels H t0 levels = some t →
      (∀ fuel, levels.length + 2 ≤ fuel →
        gst_thread_countframes H fuel t = some (levels.length + 1)) ∧
      ∀ j, j ≤ levels.length + 1 →
        ∃ vm' t', popFrames H j vm t = some (vm', t') ∧
          ∀ fuel, levels.length + 2 - j ≤ fuel →
            gst_thread_countframes H fuel t' = some (levels.length + 1 - j)) ∧
    (0 < H → 2 * H ≤ cap →
      ∃ t0 t, gst_thread H vm callee cap = some t0 ∧ runLevels H t0 levels = some t) := by
  refine ⟨?_, ?_⟩
  · intro t0 t h0 hrun
    obtain ⟨hch0, hc0, hlen0, hused0⟩ := gst_thread_fresh h0 (by omega)
    have hkey : FrameChain H t.data t.count levels.length ∧ t.used H < 4294967296 := by
      cases hlv : levels with
      | nil =>
        subst hlv
        simp only [runLevels, Option.some.injEq] at hrun
        subst hrun
        exact ⟨hch0, by omega⟩
      | cons l ls =>
        subst hlv
        have hrun' := hrun
        simp only [runLevels, Option.bind_eq_bind, Option.bind_eq_some] at hrun'
        obtain ⟨t1, h1, -⟩ := hrun'
        simp only [List.map_cons, List.sum_cons] at hfit
        have hv0 : Valid H t0 := runLevel_valid h1 hlen0 (by omega)
        obtain ⟨t', h', -, hch', hused'⟩ := runLevels_spec (l :: ls) t0 0 hv0 hch0 (by
          simp only [List.map_cons, List.sum_cons]; omega)
        rw [hrun] at h'
        have ht : t = t' := Option.some.inj h'
        subst ht
        rw [Nat.zero_add] at hch'
        simp only [List.map_cons, List.sum_cons] at hused'
        exact ⟨hch', by omega⟩
    obtain ⟨hch, hfit'⟩ := hkey
    exact ⟨fun fuel hf => countframes_chain hch hfit' fuel hf,
      fun j hj => popFrames_count j levels.length vm t hch hfit' hj⟩
  · intro hH hcap
    obtain ⟨t0, h0, hv0, hch0, -, hused0⟩ := gst_thread_spec vm callee hH hcap (by omega)
    obtain ⟨t, h, -⟩ := runLevels_spec levels t0 0 hv0 hch0 (by omega)
    exact ⟨t0, t, h0, h⟩

/-- C6 witness: a fiber of capacity 10 with two nested calls has 3 frames; two
pops leave 1 frame and three pops leave none. -/
theorem frame_count_consistency_witness :
    2 * (2 * 2 + endframeRoom valA + (twoLevels.map (Level.room 2)).sum) < 4294967296 ∧
    (∀ t0 t, gst_thread 2 capturingVm valA 10 = some t0 → runLevels 2 t0 twoLevels = some t →
      (∀ fuel, twoLevels.length + 2 ≤ fuel →
        gst_thread_countframes 2 fuel t = some (twoLevels.length + 1)) ∧
      ∀ j, j ≤ twoLevels.length + 1 →
        ∃ vm' t', popFrames 2 j capturingVm t = some (vm', t') ∧
          ∀ fuel, twoLevels.length + 2 - j ≤ fuel →
            gst_thread_countframes 2 fuel t' = some (twoLevels.length + 1 - j)) ∧
    (∃ t0 t, gst_thread 2 capturingVm valA 10 = some t0 ∧ runLevels 2 t0 twoLevels = some t ∧
      gst_thread_countframes 2 4 t = some 3 ∧
      (∃ vm' t', popFrames 2 2 capturingVm t = some (vm', t') ∧
        gst_thread_countframes 2 4 t' = some 1) ∧
      ∃ vm' t', popFrames 2 3 capturingVm t = some (vm', t') ∧
        gst_thread_countframes 2 4 t' = some 0) :=
  ⟨by decide,
   (frame_count_consistency 2 capturingVm valA 10 twoLevels (by decide)).1,
   ⟨_, _, rfl, rfl, rfl, ⟨_, _, rfl, rfl⟩, ⟨_, _, rfl, rfl⟩⟩⟩

/-- C11: for a valid fiber (with the new frame within the 32-bit range), with
`s` the caller frame's size and `c` the `count` before the call,
`gst_thread_beginframe` succeeds; afterwards `count` is
`c + s + GST_FRAME_SIZE`, the new current header has `prevsize = s`,
`env = NULL` and the given callee, the new frame has size `arity` and each of
its `arity` slots is `Nil`, and the caller frame's header (so its size) and
local slots are unchanged. The returned stack pointer is
`thread->data + thread->count`, the frame at the new `count`. -/
theorem beginframe_contract (H : Nat) (t : GstThread) (callee : GstValue) (arity : Nat)
    (hv : Valid H t) (hfit : 2 * (t.used H + H + arity + 4) < 4294967296) :
    ∃ t', gst_thread_beginframe H t callee arity = some t' ∧
      t'.count = t.count + t.frame.size + H ∧
      t'.frame.prevsize = t.frame.size ∧ t'.frame.env = none ∧ t'.frame.callee = callee ∧
      t'.frame.size = arity ∧
      (∀ i, i < arity → t'.slot i = some (Cell.value GstValue.nil)) ∧
      frameAt t'.data t.count = t.frame ∧
      (∀ i, i < t.frame.size → t'.data[t.count + i]? = t.slot i) := by
  obtain ⟨t', h, -, hc, -, -, -, hprev, henv, hcallee, hsz, hnil, hsame⟩ :=
    beginframe_spec callee arity hv hfit
  have hpos : 0 < t.count := lt_of_lt_of_le hv.1.1 hv.1.2.1
  exact ⟨t', h, hc, hprev, henv, hcallee, hsz, hnil,
    frameAt_congr (hsame (t.count - 1) (by omega)), fun i hi => hsame (t.count + i) (by omega)⟩

/-- C11 witness: a call of `fixed5` with arity 1 on the frame holding
`[c, d]`. -/
theorem beginframe_contract_witness :
    Valid 2 (fiberOf valA [valC, valD] 2) ∧
    ∃ t', gst_thread_beginframe 2 (fiberOf valA [valC, valD] 2) fixed5 1 = some t' ∧
      t'.count = (fiberOf valA [valC, valD] 2).count +
        (fiberOf valA [valC, valD] 2).frame.size + 2 ∧
      t'.frame.prevsize = (fiberOf valA [valC, valD] 2).frame.size ∧ t'.frame.env = none ∧
      t'.frame.callee = fixed5 ∧ t'.frame.size = 1 ∧
      (∀ i, i < 1 → t'.slot i = some (Cell.value GstValue.nil)) ∧
      frameAt t'.data (fiberOf valA [valC, valD] 2).count =
        (fiberOf valA [valC, valD] 2).frame ∧
      (∀ i, i < (fiberOf valA [valC, valD] 2).frame.size →
        t'.data[(fiberOf valA [valC, valD] 2).count + i]? =
          (fiberOf valA [valC, valD] 2).slot i) :=
  ⟨by decide,
   beginframe_contract 2 (fiberOf valA [valC, valD] 2) fixed5 1 (by decide) (by decide)⟩

/-- C12: `gst_thread`, for every callee and initial capacity (with the storage
sizes within the 32-bit range). Every fiber it returns has status pending,
`parent` equal to the VM's current fiber, `count = GST_FRAME_SIZE`, a capacity
that is at least the initial capacity and at least `GST_FRAME_SIZE`, and a root
header with `prevsize = 0`, `ret = 0`, `env = NULL` and the given callee; it is
the result of `gst_thread_endframe` on the initial root header (size 0, args 0,
no pc). When the callee is not a function the call returns for every initial
capacity and the root frame has size 0, args 0 and no pc. For any callee the
call returns when the initial capacity is at least `2 * GST_FRAME_SIZE`. -/
theorem gst_thread_contract (H : Nat) (vm : Gst) (callee : GstValue) (cap : Nat)
    (hfit : 2 * (2 * H + endframeRoom callee) < 4294967296) :
    (∀ t, gst_thread H vm callee cap = some t →
      t.status = GstThreadStatus.pending ∧ t.parent = vm.thread ∧ t.count = H ∧
      cap ≤ t.capacity ∧ H ≤ t.capacity ∧ t.data.length = t.capacity ∧
      t.frame.prevsize = 0 ∧ t.frame.ret = 0 ∧ t.frame.env = none ∧
      t.frame.callee = callee ∧
      (gst_thread_root H callee cap).frame =
        { size := 0, prevsize := 0, ret := 0, args := 0, pc := none, env := none,
          callee := callee } ∧
      ∃ t1, gst_thread_endframe H (gst_thread_root H callee cap) = some t1 ∧
        t = { t1 with parent := vm.thread }) ∧
    (0 < H → (∀ fn, callee ≠ GstValue.function fn) →
      ∃ t, gst_thread H vm callee cap = some t ∧
        t.frame.size = 0 ∧ t.frame.args = 0 ∧ t.frame.pc = none) ∧
    (0 < H → 2 * H ≤ cap → ∃ t, gst_thread H vm callee cap = some t) := by
  refine ⟨?_, ?_, ?_⟩
  · intro t h
    obtain ⟨-, hc, hs, hp, hlen, s, pc, args, hfr, -⟩ := gst_thread_weak h (by omega)
    obtain ⟨hcap, hcapH⟩ := gst_thread_cap h hfit
    obtain ⟨hH, hun⟩ := gst_thread_unfold h
    exact ⟨hs, hp, hc, hcap, hcapH, hlen, by rw [hfr], by rw [hfr], by rw [hfr], by rw [hfr],
      (gst_thread_root_ok callee cap hH).2, hun⟩
  · intro hH hcallee
    refine ⟨_, gst_thread_other vm cap hH hcallee, ?_⟩
    have hfr := (gst_thread_root_ok callee cap hH).2
    have hfr' : GstThread.frame { gst_thread_root H callee cap with parent := vm.thread } =
        (gst_thread_root H callee cap).frame := rfl
    rw [hfr', hfr]
    exact ⟨rfl, rfl, rfl⟩
  · intro hH hcap
    obtain ⟨t, h, -⟩ := gst_thread_spec vm callee hH hcap hfit
    exact ⟨t, h⟩

/-- C12 witness: a fiber for `fixed5` with the initial capacity 8. -/
theorem gst_thread_contract_witness :
    2 * (2 * 2 + endframeRoom fixed5) < 4294967296 ∧
    (∀ t, gst_thread 2 capturingVm fixed5 8 = some t →
      t.status = GstThreadStatus.pending ∧ t.parent = capturingVm.thread ∧ t.count = 2 ∧
      8 ≤ t.capacity ∧ 2 ≤ t.capacity ∧ t.data.length = t.capacity ∧
      t.frame.prevsize = 0 ∧ t.frame.ret = 0 ∧ t.frame.env = none ∧
      t.frame.callee = fixed5 ∧
      (gst_thread_root 2 fixed5 8).frame =
        { size := 0, prevsize := 0, ret := 0, args := 0, pc := none, env := none,
          callee := fixed5 } ∧
      ∃ t1, gst_thread_endframe 2 (gst_thread_root 2 fixed5 8) = some t1 ∧
        t = { t1 with parent := capturingVm.thread }) ∧
    (0 < 2 → (∀ fn, fixed5 ≠ GstValue.function fn) →
      ∃ t, gst_thread 2 capturingVm fixed5 8 = some t ∧
        t.frame.size = 0 ∧ t.frame.args = 0 ∧ t.frame.pc = none) ∧
    (0 < 2 → 2 * 2 ≤ 8 → ∃ t, gst_thread 2 capturingVm fixed5 8 = some t) :=
  ⟨by decide, gst_thread_contract 2 capturingVm fixed5 8 (by decide)⟩

/-- C13: for a fiber whose current header is readable and whose callee is not
a function, `gst_thread_endframe` returns the fiber as it was: storage,
capacity, `count` and every header field are unchanged. -/
theorem endframe_not_function (H : Nat) (t : GstThread) (hok : frameOk H t.data t.count)
    (hcallee : ∀ fn, t.frame.callee ≠ GstValue.function fn) :
    gst_thread_endframe H t = some t :=
  endframe_other_spec hok hcallee

/-- C13 witness: the frame of the value `a` holding `[c, d]`. -/
theorem endframe_not_function_witness :
    frameOk 2 (fiberOf valA [valC, valD] 2).data (fiberOf valA [valC, valD] 2).count ∧
    gst_thread_endframe 2 (fiberOf valA [valC, valD] 2) = some (fiberOf valA [valC, valD] 2) :=
  ⟨by decide,
   endframe_not_function 2 (fiberOf valA [valC, valD] 2) (by decide)
     (fun fn h => GstValue.noConfusion h)⟩

/-- C16 (the code departs from the claim): on a valid fiber with
`capacity = 10` and `used = 4`, `gst_thread_ensure_extra` with
`extra = 2^31` computes `newCapacity = 2 * (4 + 2^31)`, which is 8 in
`uint32_t` arithmetic: the capacity decreases from 10 to 8 and is below the
true sum `used + extra`. With `extra = 2^32 - 4` the needed capacity wraps to
0 and the fiber is returned unchanged, again with `capacity < used + extra`. -/
theorem ensure_extra_wraps :
    Valid 2 (fiberOf valA [] 8) ∧ (fiberOf valA [] 8).capacity = 10 ∧
    (fiberOf valA [] 8).used 2 = 4 ∧
    (∃ t', gst_thread_ensure_extra 2 (fiberOf valA [] 8) 2147483648 = some t' ∧
      t'.capacity = 8 ∧ t'.data.length = 8 ∧ t'.capacity < (fiberOf valA [] 8).capacity ∧
      t'.capacity < (fiberOf valA [] 8).used 2 + 2147483648) ∧
    gst_thread_ensure_extra 2 (fiberOf valA [] 8) 4294967292 = some (fiberOf valA [] 8) ∧
    (fiberOf valA [] 8).capacity < (fiberOf valA [] 8).used 2 + 4294967292 :=
  ⟨by decide, rfl, rfl, ⟨_, rfl, rfl, rfl, by decide, by decide⟩, rfl, by decide⟩

/-- C17 (the code departs from the claim): `gst_thread` with the initial
capacity 0 (and a callee that is not a function) returns a fiber with
`capacity = GST_FRAME_SIZE = 2` and `count + size + GST_FRAME_SIZE = 4`, so the
capacity invariant is false in the first reachable state; the following
`gst_thread_beginframe` or `gst_thread_push` copies 4 cells out of the 2-cell
storage and faults. With the initial capacity 4 the invariant holds. -/
theorem fresh_fiber_breaks_capacity_invariant :
    (∃ t0, gst_thread 2 capturingVm valA 0 = some t0 ∧ t0.capacity = 2 ∧
      t0.data.length = 2 ∧ t0.count + t0.frame.size + 2 = 4 ∧
      ¬ (t0.capacity ≥ t0.count + t0.frame.size + 2) ∧
      gst_thread_beginframe 2 t0 valA 0 = none ∧ gst_thread_push 2 t0 valB = none ∧
      gst_memcpy (gst_alloc 20) t0.data 4 = none) ∧
    (∃ t0, gst_thread 2 capturingVm valA 4 = some t0 ∧ t0.capacity = 4 ∧
      t0.capacity ≥ t0.count + t0.frame.size + 2) :=
  ⟨⟨_, rfl, rfl, rfl, rfl, by decide, rfl, rfl, rfl⟩, ⟨_, rfl, rfl, by decide⟩⟩

/-- C18: in every fiber state reached from `gst_thread` by calls of
`gst_thread_push`, `gst_thread_pushnil`, `gst_thread_tuplepack`,
`gst_thread_beginframe`, `gst_thread_endframe` and `gst_thread_popframe` (the
last only while `count` is not zero) that return, with the offsets within the
32-bit range, either the last frame was popped (`count = 0`) or the frames form
a well-formed chain ending at `count`: the bottom frame starts at offset
`GST_FRAME_SIZE` with `prevsize = 0`, each further frame starts at the start of
the frame below plus its size plus `GST_FRAME_SIZE`, with `prevsize` the size
of the frame below, and the last frame of the chain starts at `count`. -/
theorem chain_invariant (H : Nat) (t : GstThread) (h : Reachable H t) :
    t.count = 0 ∨ ∃ k, FrameChain H t.data t.count k := by
  induction h with
  | init hH h =>
    obtain ⟨hok, hc, -, -, -, s, pc, args, hfr, -⟩ := gst_thread_weak h hH
    rename_i t0
    have hp : (frameAt t0.data t0.count).prevsize = 0 := by
      show t0.frame.prevsize = 0; rw [hfr]
    have he : (frameAt t0.data t0.count).env = none := by
      show t0.frame.env = none; rw [hfr]
    rw [hc] at hok hp he ⊢
    exact Or.inr ⟨0, FrameChain.root hok hp he⟩
  | push _ hfit h ih =>
    obtain ⟨hok, hc, -, -, hfr, -, hb⟩ := push_weak h hfit
    exact chain_keep ih hok hc (by rw [hfr]) (by rw [hfr]) hb
  | pushnil _ hfit h ih =>
    obtain ⟨hok, hc, -, -, hfr, -, hb, -⟩ := pushnil_weak h hfit
    exact chain_keep ih hok hc (by rw [hfr]) (by rw [hfr]) hb
  | tuplepack _ hfit h ih =>
    obtain ⟨hok, hc, -, -, ⟨s, hfr, -⟩, -, hb, -⟩ := tuplepack_weak h hfit
    exact chain_keep ih hok hc (by rw [hfr]) (by rw [hfr]) hb
  | beginframe _ hfit h ih => exact chain_beginframe ih h hfit
  | endframe _ hfit h ih =>
    obtain ⟨hok, hc, -, -, ⟨s, pc, args, hfr, -⟩, -, hb, -⟩ := endframe_weak h hfit
    exact chain_keep ih hok hc (by rw [hfr]) (by rw [hfr]) hb
  | popframe _ hne hfit h ih => exact chain_popframe ih hne h hfit

/-- C18 witness: the fiber created for the value `a` with capacity 8, after
pushing `c` and `d` and beginning a call of `fixed5` with arity 1. -/
theorem chain_invariant_witness :
    Reachable 2 calledFiber ∧
    (calledFiber.count = 0 ∨ ∃ k, FrameChain 2 calledFiber.data calledFiber.count k) := by
  have h0 : Reachable 2 (fiberOf valA [] 6) :=
    @Reachable.init 2 capturingVm valA 8 (fiberOf valA [] 6) (by decide) rfl
  have h1 : Reachable 2 (fiberOf valA [valC] 5) :=
    @Reachable.push 2 (fiberOf valA [] 6) (fiberOf valA [valC] 5) valC h0 (by decide) rfl
  have h2 : Reachable 2 (fiberOf valA [valC, valD] 4) :=
    @Reachable.push 2 (fiberOf valA [valC] 5) (fiberOf valA [valC, valD] 4) valD h1
      (by decide) rfl
  have h3 : Reachable 2 calledFiber :=
    @Reachable.beginframe 2 (fiberOf valA [valC, valD] 4) calledFiber fixed5 1 h2
      (by decide) rfl
  exact ⟨h3, chain_invariant 2 calledFiber h3⟩

/-- C19 (the code departs from the claim): `gst_thread` for a variadic function
of arity 0 with the initial capacity 0 allocates `GST_FRAME_SIZE = 2` cells;
`gst_thread_endframe` calls `gst_thread_tuplepack` with `n = 0 = size`, whose
`n ≤ size` branch writes the tuple to `stack[0]`, index 2 of a storage of
capacity 2. For `fixed5` with the initial capacity 0 the padding
`gst_thread_pushnil` reallocates and `gst_memcpy` reads 4 cells from the 2-cell
storage. Both accesses are outside the storage. -/
theorem fresh_fiber_out_of_bounds :
    gst_thread 2 capturingVm variadic0 0 = none ∧
    (writeFrame 2 ((gst_alloc 2).set 1 (Cell.frame
        { size := 0, prevsize := 0, ret := 0, args := 0, pc := none, env := none,
          callee := variadic0 })) 2 (fun h => { h with pc := some 66 }) = some bareFiber.data ∧
      bareFiber.capacity = 2 ∧ bareFiber.data.length = 2 ∧ bareFiber.count + 0 = 2 ∧
      gst_thread_tuplepack 2 bareFiber 0 = none ∧
      tupleFill bareFiber.data (bareFiber.count + 0) 0 = some [] ∧
      writeCell bareFiber.data (bareFiber.count + 0) (Cell.value (GstValue.tuple [])) = none) ∧
    gst_thread 2 capturingVm fixed5 0 = none ∧
    gst_memcpy (gst_alloc 18) bareFiber.data 4 = none ∧
    (∃ t, gst_thread 2 capturingVm variadic0 4 = some t) :=
  ⟨rfl, ⟨rfl, rfl, rfl, rfl, rfl, rfl, rfl⟩, rfl, rfl, ⟨_, rfl⟩⟩

/-- C14 counterexample: on the fiber `malformedFiber` (`count = 4`, the bottom
header claims 5 slots) the forward walk visits the frame at offset 2 and
steps to offset 9, past `count` without landing on it;
`gst_thread_countframes` reports nothing and returns the count 1. -/
theorem countframes_malformed_counterexample :
    frameOk 2 malformedFiber.data 2 ∧ (frameAt malformedFiber.data 2).size = 5 ∧
    2 < malformedFiber.count ∧ malformedFiber.count < 2 + 5 + 2 ∧
    gst_thread_countframes 2 2 malformedFiber = some 1 ∧
    gst_thread_countframes 2 7 malformedFiber = some 1 :=
  ⟨by decide, rfl, by decide, by decide, rfl, rfl⟩

/-- C14 (amended): when the forward walk from the bottom frame in steps of
`size + GST_FRAME_SIZE` passes `count` without landing on it (its last frame,
the `k+1`-th, starts at `s < count` and the next step leads beyond `count`),
`gst_thread_countframes` makes no check and reports no fault: it returns
`k + 1`, the number of frames the walk visited (given fuel for `k + 2`
iterations). -/
theorem countframes_malformed (H : Nat) (t : GstThread) (s k : Nat)
    (hw : ForwardWalk H t.data s k) (hok : frameOk H t.data s) (hs : s < t.count)
    (hover : t.count < s + (frameAt t.data s).size + H)
    (hfit : s + (frameAt t.data s).size + H < 4294967296) (fuel : Nat)
    (hfuel : k + 2 ≤ fuel) : gst_thread_countframes H fuel t = some (k + 1) :=
  countframes_walk hw hok (Nat.le_of_lt hs) hover hfit fuel hfuel

/-- C14 witness: the fiber `malformedFiber`, whose walk stops after one
frame. -/
theorem countframes_malformed_witness :
    ForwardWalk 2 malformedFiber.data 2 0 ∧ 2 < malformedFiber.count ∧
    gst_thread_countframes 2 3 malformedFiber = some (0 + 1) :=
  ⟨ForwardWalk.bottom, by decide,
   countframes_malformed 2 malformedFiber 2 0 ForwardWalk.bottom (by decide) (by decide)
     (by decide) (by decide) 3 (by decide)⟩

/-- C15 counterexample: a fiber made by `gst_thread` is emptied by popping its
root frame (`count = 0`). A further `gst_thread_popframe` makes no check of
`count`: its first step reads the header of the frame at offset 0, which lies
below the storage, so the access is outside the allocation and no result is
defined; there is no assertion that fails. -/
theorem popframe_empty_counterexample :
    ∃ t0 vm1 t1, gst_thread 2 capturingVm valA 10 = some t0 ∧
      gst_thread_popframe 2 capturingVm t0 = some (vm1, t1, none) ∧ t1.count = 0 ∧
      ¬ frameOk 2 t1.data t1.count ∧ readFrame 2 t1.data t1.count = none ∧
      gst_thread_popframe 2 vm1 t1 = none :=
  ⟨_, _, _, rfl, rfl, rfl, by decide, rfl, rfl⟩

/-- C15 (amended): for a fiber that is already empty (`count = 0`),
`gst_thread_popframe` checks nothing: the read of `gst_frame_prevsize(stack)`
with which it starts is a read below the storage, outside the allocation, so
the call has no defined result (and no changed fiber). -/
theorem popframe_empty_out_of_bounds (H : Nat) (vm : Gst) (t : GstThread) (h : t.count = 0) :
    readFrame H t.data t.count = none ∧ gst_thread_popframe H vm t = none :=
  popframe_empty vm h

/-- C15 witness: an emptied fiber with 10 cells of storage. -/
theorem popframe_empty_out_of_bounds_witness :
    ({ (fiberOf valA [] 8) with count := 0 } : GstThread).count = 0 ∧
    readFrame 2 ({ (fiberOf valA [] 8) with count := 0 } : GstThread).data
      ({ (fiberOf valA [] 8) with count := 0 } : GstThread).count = none ∧
    gst_thread_popframe 2 capturingVm { (fiberOf valA [] 8) with count := 0 } = none :=
  ⟨rfl, popframe_empty_out_of_bounds 2 capturingVm { (fiberOf valA [] 8) with count := 0 } rfl⟩

/-- C20 counterexample: with the size `2^32 - 1` in the bottom header of
`shortStepFiber` the step `size + GST_FRAME_SIZE` is 1 in `uint32_t`
arithmetic, and `gst_thread_countframes` returns 2, more than
`count / GST_FRAME_SIZE = 3 / 2 = 1`; with the size `2^32 - 2` in the header
of `loopFiber` the step is 0 and the loop never ends: no amount of fuel gives a
result. -/
theorem countframes_wrap_counterexample :
    (gst_thread_countframes 2 4 shortStepFiber = some 2 ∧ shortStepFiber.count / 2 = 1) ∧
    (u32 ((frameAt loopFiber.data loopFiber.count).size + 2) = 0 ∧
      ∀ fuel, gst_thread_countframes 2 fuel loopFiber = none) :=
  ⟨⟨rfl, rfl⟩, rfl, fun fuel => countLoop_spins fuel 0⟩

/-- C20 (amended): for every fiber, well-formed or not, with
`GST_FRAME_SIZE ≥ 1`, `count` inside the storage, and `size + GST_FRAME_SIZE`
within the 32-bit range for every header up to `count`,
`gst_thread_countframes` terminates (`count + 2` iterations of fuel suffice)
and returns a count `n ≤ count / GST_FRAME_SIZE`, with `n = 0` when
`count < GST_FRAME_SIZE` and `n ≥ 1` when `count ≥ GST_FRAME_SIZE`. It only
reads the fiber. -/
theorem countframes_terminates (H : Nat) (t : GstThread) (hH : 0 < H)
    (hcount : t.count < 4294967296) (hlen : t.count ≤ t.data.length)
    (hsz : ∀ s, s ≤ t.count → (frameAt t.data s).size + H < 4294967296) :
    ∃ n, (∀ fuel, t.count + 2 ≤ fuel → gst_thread_countframes H fuel t = some n) ∧
      n ≤ t.count / H ∧ (t.count < H → n = 0) ∧ (H ≤ t.count → 1 ≤ n) := by
  obtain ⟨n, hn, -, hbound, hone⟩ :=
    countLoop_total hH hcount hlen hsz (t.count + 1) H 0 (by omega) (le_refl _) (by omega)
      (by omega)
  refine ⟨n, fun fuel hf => hn fuel (by omega), (Nat.le_div_iff_mul_le hH).mpr hbound, ?_,
    fun h => hone h⟩
  intro hlt
  by_contra hne
  have h1 : 1 ≤ n := Nat.one_le_iff_ne_zero.mpr hne
  have h2 : 1 * H ≤ n * H := Nat.mul_le_mul_right H h1
  omega

/-- C20 witness: the fiber `malformedFiber` (`count = 4`): the count is 1. -/
theorem countframes_terminates_witness :
    (∀ s, s ≤ malformedFiber.count → (frameAt malformedFiber.data s).size + 2 < 4294967296) ∧
    ∃ n, (∀ fuel, malformedFiber.count + 2 ≤ fuel →
        gst_thread_countframes 2 fuel malformedFiber = some n) ∧
      n ≤ malformedFiber.count / 2 ∧ (malformedFiber.count < 2 → n = 0) ∧
      (2 ≤ malformedFiber.count → 1 ≤ n) :=
  ⟨by decide,
   countframes_terminates 2 malformedFiber (by decide) (by decide) (by decide) (by decide)⟩

end GstCore
